import Mathlib

/-!
Verification of the LogRescuer archival tool against its specification.

The development shallowly embeds the C++ sources:
* `io` — serialisation primitives, footer and metadata writer/reader
  (`src/IO.cpp`), modelling streams as byte lists (`List Nat`) and
  machine integers as `Nat`/`Int` with explicit wrap-around;
* `compression` — the `CompressionType` enumeration with its build-time
  feature gates (`include/CompressorFactory.h`), and the dedup +
  compression pipeline of `src/FileCompressor.cpp`;
* `threading` — the worker-pool sizing logic (`src/ThreadPool.cpp`).

Parallel loops (`ThreadPool::parallelFor`) are modelled as folds: the
archive mutex serialises every archive access, so a run of the parallel
loop is an interleaving, i.e. a fold over some completion order of the
items.  Where a claim is about scheduling (first-seen classification) the
completion order is an explicit parameter; elsewhere the fold runs in
item order.
-/

namespace LogRescuer

/-- A byte stream is a list of byte values (each `< 256` when produced by
the writers below). -/
abbrev Bytes := List Nat

namespace io

/-- Little-endian bytes of `n`, exactly `w` bytes wide (the raw
`stream.write(reinterpret_cast<const char*>(&data), sizeof(T))` of a
fixed-width unsigned integer in `include/IO.h`). -/
def leBytes : Nat → Nat → Bytes
  | 0, _ => []
  | w + 1, n => n % 256 :: leBytes w (n / 256)

/-- Value of a little-endian byte list. -/
def leVal : Bytes → Nat
  | [] => 0
  | b :: bs => b + 256 * leVal bs

/-- `io::write` of a `uint64_t`. -/
def u64le (n : Nat) : Bytes := leBytes 8 n

/-- `io::write` of a 4-byte value (the width of the `CompressionType`
enumeration). -/
def u32le (n : Nat) : Bytes := leBytes 4 n

/-- `io::write` of an `int64_t`: the two's-complement little-endian
bytes. -/
def i64le (n : Int) : Bytes := u64le (n.emod (2 ^ 64)).toNat

/-- Read exactly `w` bytes from the stream; `none` is the
"incomplete read" failure of `io::readBuffer`. -/
def takeBytes : Nat → Bytes → Option (Bytes × Bytes)
  | 0, bs => some ([], bs)
  | _ + 1, [] => none
  | w + 1, b :: bs => (takeBytes w bs).map fun p => (b :: p.1, p.2)

/-- `io::read` of a `w`-byte unsigned integer. -/
def takeW (w : Nat) (bs : Bytes) : Option (Nat × Bytes) :=
  (takeBytes w bs).map fun p => (leVal p.1, p.2)

/-- `io::read` of a `uint64_t`. -/
def takeU64 (bs : Bytes) : Option (Nat × Bytes) := takeW 8 bs

/-- `io::read` of the 4-byte `CompressionType`. -/
def takeU32 (bs : Bytes) : Option (Nat × Bytes) := takeW 4 bs

/-- `io::read` of an `int64_t` (two's-complement reinterpretation of the
eight bytes). -/
def takeI64 (bs : Bytes) : Option (Int × Bytes) :=
  (takeW 8 bs).map fun p =>
    (if p.1 < 2 ^ 63 then (p.1 : Int) else (p.1 : Int) - 2 ^ 64, p.2)

/-- `io::write(stream, str)`: `uint64` length, then the bytes
(`src/IO.cpp`, lines 47–51). -/
def strBytes (s : Bytes) : Bytes := u64le s.length ++ s

/-- `io::read(stream, str)`: read the length, then that many bytes
(`src/IO.cpp`, lines 53–58). -/
def takeStr (bs : Bytes) : Option (Bytes × Bytes) :=
  match takeU64 bs with
  | none => none
  | some (len, rest) => takeBytes len rest

theorem leBytes_length (w n : Nat) : (leBytes w n).length = w := by
  induction w generalizing n with
  | zero => rfl
  | succ w ih => simp [leBytes, ih]

theorem leVal_leBytes (w n : Nat) : leVal (leBytes w n) = n % 256 ^ w := by
  induction w generalizing n with
  | zero => simp [leBytes, leVal, Nat.mod_one]
  | succ w ih =>
    have h256 : (0:Nat) < 256 := by norm_num
    have hlt : n % 256 + 256 * (n / 256 % 256 ^ w) < 256 * 256 ^ w := by
      have h1 : n % 256 < 256 := Nat.mod_lt _ h256
      have h2 : n / 256 % 256 ^ w < 256 ^ w :=
        Nat.mod_lt _ (Nat.pos_pow_of_pos w h256)
      calc n % 256 + 256 * (n / 256 % 256 ^ w)
          ≤ 255 + 256 * (n / 256 % 256 ^ w) := by omega
        _ < 256 * (n / 256 % 256 ^ w + 1) := by omega
        _ ≤ 256 * 256 ^ w := by
            exact Nat.mul_le_mul_left _ (by omega)
    have hn : 256 * 256 ^ w * (n / 256 / 256 ^ w)
        + (n % 256 + 256 * (n / 256 % 256 ^ w)) = n := by
      have hd := Nat.div_add_mod (n / 256) (256 ^ w)
      calc 256 * 256 ^ w * (n / 256 / 256 ^ w)
            + (n % 256 + 256 * (n / 256 % 256 ^ w))
          = 256 * (256 ^ w * (n / 256 / 256 ^ w) + n / 256 % 256 ^ w)
            + n % 256 := by ring
        _ = 256 * (n / 256) + n % 256 := by rw [hd]
        _ = n := Nat.div_add_mod n 256
    calc leVal (leBytes (w + 1) n)
        = n % 256 + 256 * leVal (leBytes w (n / 256)) := rfl
      _ = n % 256 + 256 * (n / 256 % 256 ^ w) := by rw [ih]
      _ = (n % 256 + 256 * (n / 256 % 256 ^ w)) % (256 * 256 ^ w) :=
          (Nat.mod_eq_of_lt hlt).symm
      _ = n % (256 * 256 ^ w) := by
          conv_rhs => rw [← hn]
          rw [Nat.mul_add_mod]
      _ = n % 256 ^ (w + 1) := by rw [pow_succ, mul_comm (256 ^ w) 256]

theorem takeBytes_append (xs rest : Bytes) :
    takeBytes xs.length (xs ++ rest) = some (xs, rest) := by
  induction xs with
  | nil => rfl
  | cons b bs ih => simp [takeBytes, ih]

theorem takeW_leBytes (w n : Nat) (rest : Bytes) :
    takeW w (leBytes w n ++ rest) = some (n % 256 ^ w, rest) := by
  have h := takeBytes_append (leBytes w n) rest
  rw [leBytes_length] at h
  simp [takeW, h, leVal_leBytes]

theorem takeU64_u64le (n : Nat) (rest : Bytes) (h : n < 2 ^ 64) :
    takeU64 (u64le n ++ rest) = some (n, rest) := by
  have : (256 : Nat) ^ 8 = 2 ^ 64 := by norm_num
  rw [takeU64, u64le, takeW_leBytes, this, Nat.mod_eq_of_lt h]

theorem takeU32_u32le (n : Nat) (rest : Bytes) (h : n < 2 ^ 32) :
    takeU32 (u32le n ++ rest) = some (n, rest) := by
  have : (256 : Nat) ^ 4 = 2 ^ 32 := by norm_num
  rw [takeU32, u32le, takeW_leBytes, this, Nat.mod_eq_of_lt h]

theorem takeI64_i64le (n : Int) (rest : Bytes)
    (hlo : -(2 ^ 63) ≤ n) (hhi : n < 2 ^ 63) :
    takeI64 (i64le n ++ rest) = some (n, rest) := by
  have hv : (n.emod (2 ^ 64)).toNat < 2 ^ 64 := by
    have h1 : n.emod (2 ^ 64) < 2 ^ 64 := Int.emod_lt_of_pos n (by norm_num)
    have h2 : 0 ≤ n.emod (2 ^ 64) := Int.emod_nonneg n (by norm_num)
    omega
  have h8 : takeW 8 (u64le (n.emod (2 ^ 64)).toNat ++ rest)
      = some ((n.emod (2 ^ 64)).toNat, rest) := by
    have := takeU64_u64le (n.emod (2 ^ 64)).toNat rest hv
    simpa [takeU64] using this
  rcases le_or_lt 0 n with hn | hn
  · have he : n.emod (2 ^ 64) = n := Int.emod_eq_of_lt hn (by omega)
    have ht : ((n.emod (2 ^ 64)).toNat : Int) = n := by rw [he]; omega
    have hlt : (n.emod (2 ^ 64)).toNat < 2 ^ 63 := by
      have : ((2:Int) ^ 63 : Int) = ((2 ^ 63 : Nat) : Int) := by norm_num
      omega
    rw [takeI64, i64le, h8, Option.map_some', if_pos hlt, ht]
  · have h1 : (n + 2 ^ 64) % (2 ^ 64) = n % (2 ^ 64) := by simp
    have h2 : (n + 2 ^ 64) % (2 ^ 64) = n + 2 ^ 64 :=
      Int.emod_eq_of_lt (by omega) (by omega)
    have he : n.emod (2 ^ 64) = n + 2 ^ 64 := by
      show n % (2 ^ 64) = n + 2 ^ 64
      rw [← h1, h2]
    have ht : ((n.emod (2 ^ 64)).toNat : Int) = n + 2 ^ 64 := by rw [he]; omega
    have hge : ¬ (n.emod (2 ^ 64)).toNat < 2 ^ 63 := by
      have : ((2:Int) ^ 63 : Int) = ((2 ^ 63 : Nat) : Int) := by norm_num
      omega
    have hfix : ((n.emod (2 ^ 64)).toNat : Int) - 2 ^ 64 = n := by omega
    rw [takeI64, i64le, h8, Option.map_some', if_neg hge, hfix]

theorem takeStr_strBytes (s rest : Bytes) (h : s.length < 2 ^ 64) :
    takeStr (strBytes s ++ rest) = some (s, rest) := by
  rw [takeStr, strBytes, List.append_assoc, takeU64_u64le _ _ h]
  exact takeBytes_append s rest

end io

namespace meta

/-- One entry of the archive's metadata table (`include/FileMeta.h`):
`dataOffset` is an `int64_t`, `hash` and `relativePath` are byte
strings. -/
structure FileMeta where
  dataOffset : Int
  hash : Bytes
  relativePath : Bytes
deriving DecidableEq, Repr

/-- `FileMeta::isOriginal`: `dataOffset >= 0` (`include/FileMeta.h`,
line 17). -/
def FileMeta.isOriginal (m : FileMeta) : Bool := decide (0 ≤ m.dataOffset)

/-- `FileMeta::isDuplicate`: `dataOffset < 0` (`include/FileMeta.h`,
line 22). -/
def FileMeta.isDuplicate (m : FileMeta) : Bool := decide (m.dataOffset < 0)

end meta

namespace io

/-- The footer bytes produced by `io::writeFooter` (`src/IO.cpp`,
lines 32–36): the 4-byte codec id, then `metaOffset`, then `metaCount`
(each `uint64`).  This is the shape the implementation writes — the
header `include/IO.h` declares a different, four-field footer that the
translation unit does not define. -/
def footerBytes (ct metaOffset metaCount : Nat) : Bytes :=
  u32le ct ++ u64le metaOffset ++ u64le metaCount

/-- `io::writeFooter` as a stream transformer: append the footer. -/
def writeFooter (archive : Bytes) (ct metaOffset metaCount : Nat) : Bytes :=
  archive ++ footerBytes ct metaOffset metaCount

/-- `io::readFooter` (`src/IO.cpp`, lines 38–45): seek to
`end − footerSize` where `footerSize = 2*sizeof(uint64) + 4 = 20`, then
read the codec id, `metaOffset` and `metaCount`. -/
def readFooter (bs : Bytes) : Option (Nat × Nat × Nat) :=
  if bs.length < 20 then none
  else
    match takeU32 (bs.drop (bs.length - 20)) with
    | none => none
    | some (ct, r1) =>
      match takeU64 r1 with
      | none => none
      | some (mo, r2) =>
        match takeU64 r2 with
        | none => none
        | some (mc, _) => some (ct, mo, mc)

/-- `io::write(archive, meta)` (`src/IO.cpp`, lines 60–64): offset,
hash, relative path. -/
def writeMetaRecord (m : meta.FileMeta) : Bytes :=
  i64le m.dataOffset ++ strBytes m.hash ++ strBytes m.relativePath

/-- `io::read(archive)` for one full record (`src/IO.cpp`,
lines 66–76). -/
def readMetaRecord (bs : Bytes) : Option (meta.FileMeta × Bytes) :=
  match takeI64 bs with
  | none => none
  | some (off, r1) =>
    match takeStr r1 with
    | none => none
    | some (h, r2) =>
      match takeStr r2 with
      | none => none
      | some (p, r3) => some (⟨off, h, p⟩, r3)

/-- `io::writeMetadata` (`src/IO.cpp`, lines 78–114): partition the
records by `isOriginal`/`isDuplicate`, write the original count and the
full original records, then the duplicate count and the duplicates'
hash and path only, then the footer with `metaOffset` (the write
position on entry) and `metaCount = metadata.size()`. -/
def writeMetadata (archive : Bytes) (metadata : List meta.FileMeta)
    (ct : Nat) : Bytes :=
  let metaOffset := archive.length
  let originalFiles := metadata.filter fun m => m.isOriginal
  let duplicateFiles := metadata.filter fun m => m.isDuplicate
  writeFooter
    (archive
      ++ u64le originalFiles.length
      ++ originalFiles.flatMap writeMetaRecord
      ++ u64le duplicateFiles.length
      ++ duplicateFiles.flatMap (fun m => strBytes m.hash ++ strBytes m.relativePath))
    ct metaOffset metadata.length

/-- The originals loop of `io::readMetadata` (`src/IO.cpp`,
lines 129–139). -/
def readOriginalRecords : Nat → Bytes → Option (List meta.FileMeta × Bytes)
  | 0, bs => some ([], bs)
  | k + 1, bs =>
    match readMetaRecord bs with
    | none => none
    | some (m, rest) =>
      match readOriginalRecords k rest with
      | none => none
      | some (ms, rest2) => some (m :: ms, rest2)

/-- The duplicates loop of `io::readMetadata` (`src/IO.cpp`,
lines 146–154): each duplicate is reconstructed as
`FileMeta(-1, hash, relativePath)`. -/
def readDuplicateRecords : Nat → Bytes → Option (List meta.FileMeta × Bytes)
  | 0, bs => some ([], bs)
  | k + 1, bs =>
    match takeStr bs with
    | none => none
    | some (h, r1) =>
      match takeStr r1 with
      | none => none
      | some (p, r2) =>
        match readDuplicateRecords k r2 with
        | none => none
        | some (ms, rest2) => some (⟨-1, h, p⟩ :: ms, rest2)

/-- The intermediate result of `io::readMetadata`: the counts read from
the metadata section, the two record runs, and the codec id from the
footer. -/
structure MetaParse where
  originalCount : Nat
  originals : List meta.FileMeta
  duplicateCount : Nat
  duplicates : List meta.FileMeta
  compType : Nat
deriving DecidableEq, Repr

/-- `io::readMetadata` (`src/IO.cpp`, lines 116–157), split into its
phases: read the footer, seek to `metaOffset`, read `originalCount`
full records, then `duplicateCount` short records. -/
def readMetadataCore (bs : Bytes) : Option MetaParse :=
  match readFooter bs with
  | none => none
  | some (ct, metaOffset, _) =>
    match takeU64 (bs.drop metaOffset) with
    | none => none
    | some (oc, s1) =>
      match readOriginalRecords oc s1 with
      | none => none
      | some (origs, s2) =>
        match takeU64 s2 with
        | none => none
        | some (dc, s3) =>
          match readDuplicateRecords dc s3 with
          | none => none
          | some (dups, _) => some ⟨oc, origs, dc, dups, ct⟩

/-- `io::readMetadata`'s return value: the metadata vector (originals
then duplicates, in read order) and the codec id out-parameter. -/
def readMetadata (bs : Bytes) : Option (List meta.FileMeta × Nat) :=
  (readMetadataCore bs).map fun r => (r.originals ++ r.duplicates, r.compType)

/-- Range conditions under which a record's fields survive the 8-byte /
length-prefixed serialisation. -/
def ValidMeta (m : meta.FileMeta) : Prop :=
  -(2 ^ 63) ≤ m.dataOffset ∧ m.dataOffset < 2 ^ 63 ∧
    m.hash.length < 2 ^ 64 ∧ m.relativePath.length < 2 ^ 64

instance (m : meta.FileMeta) : Decidable (ValidMeta m) := by
  unfold ValidMeta; infer_instance

theorem readOriginalRecords_length :
    ∀ (k : Nat) (bs : Bytes) (ms : List meta.FileMeta) (rest : Bytes),
      readOriginalRecords k bs = some (ms, rest) → ms.length = k := by
  intro k
  induction k with
  | zero =>
    intro bs ms rest h
    simp only [readOriginalRecords, Option.some.injEq, Prod.mk.injEq] at h
    simp [← h.1]
  | succ k ih =>
    intro bs ms rest h
    rw [readOriginalRecords] at h
    split at h
    · exact absurd h (by simp)
    split at h
    · exact absurd h (by simp)
    rename_i ms2 rest2 heq2
    simp only [Option.some.injEq, Prod.mk.injEq] at h
    have hk := ih _ ms2 rest2 heq2
    rw [← h.1, List.length_cons, hk]

theorem readDuplicateRecords_spec :
    ∀ (k : Nat) (bs : Bytes) (ms : List meta.FileMeta) (rest : Bytes),
      readDuplicateRecords k bs = some (ms, rest) →
        ms.length = k ∧ ∀ m ∈ ms, m.dataOffset = -1 := by
  intro k
  induction k with
  | zero =>
    intro bs ms rest h
    simp only [readDuplicateRecords, Option.some.injEq, Prod.mk.injEq] at h
    constructor
    · simp [← h.1]
    · intro m hm; rw [← h.1] at hm; simp at hm
  | succ k ih =>
    intro bs ms rest h
    rw [readDuplicateRecords] at h
    split at h
    · exact absurd h (by simp)
    split at h
    · exact absurd h (by simp)
    split at h
    · exact absurd h (by simp)
    rename_i ms2 rest2 heq3
    simp only [Option.some.injEq, Prod.mk.injEq] at h
    obtain ⟨hlen, hall⟩ := ih _ ms2 rest2 heq3
    constructor
    · rw [← h.1]; simp [hlen]
    · intro m hm
      rw [← h.1] at hm
      rcases List.mem_cons.mp hm with hm | hm
      · rw [hm]
      · exact hall m hm

theorem readMetaRecord_writeMetaRecord (m : meta.FileMeta) (rest : Bytes)
    (hm : ValidMeta m) :
    readMetaRecord (writeMetaRecord m ++ rest) = some (m, rest) := by
  obtain ⟨h1, h2, h3, h4⟩ := hm
  simp only [readMetaRecord, writeMetaRecord, List.append_assoc,
    takeI64_i64le _ _ h1 h2, takeStr_strBytes _ _ h3,
    takeStr_strBytes _ _ h4]

theorem readOriginalRecords_flatMap (os : List meta.FileMeta)
    (rest : Bytes) (h : ∀ m ∈ os, ValidMeta m) :
    readOriginalRecords os.length (os.flatMap writeMetaRecord ++ rest)
      = some (os, rest) := by
  induction os with
  | nil => simp [readOriginalRecords]
  | cons m os ih =>
    have hm := h m (by simp)
    have hr := readMetaRecord_writeMetaRecord m
      (os.flatMap writeMetaRecord ++ rest) hm
    have hrec := ih (fun x hx => h x (List.mem_cons_of_mem _ hx))
    simp only [List.flatMap_cons, List.length_cons, List.append_assoc] at *
    simp only [readOriginalRecords, hr, hrec]

theorem readDuplicateRecords_flatMap (ds : List meta.FileMeta)
    (rest : Bytes) (h : ∀ m ∈ ds, ValidMeta m) :
    readDuplicateRecords ds.length
        ((ds.flatMap fun m => strBytes m.hash ++ strBytes m.relativePath)
          ++ rest)
      = some (ds.map fun m =>
          (⟨-1, m.hash, m.relativePath⟩ : meta.FileMeta), rest) := by
  induction ds with
  | nil => simp [readDuplicateRecords]
  | cons m ds ih =>
    obtain ⟨_, _, h3, h4⟩ := h m (by simp)
    have hrec := ih (fun x hx => h x (List.mem_cons_of_mem _ hx))
    simp only [List.flatMap_cons, List.length_cons, List.append_assoc] at *
    simp only [readDuplicateRecords, takeStr_strBytes _ _ h3,
      takeStr_strBytes _ _ h4, hrec, List.map_cons]

theorem footerBytes_length (ct mo mc : Nat) :
    (footerBytes ct mo mc).length = 20 := by
  simp [footerBytes, u32le, u64le, leBytes_length]

theorem readFooter_append (pre : Bytes) (ct mo mc : Nat)
    (hct : ct < 2 ^ 32) (hmo : mo < 2 ^ 64) (hmc : mc < 2 ^ 64) :
    readFooter (pre ++ footerBytes ct mo mc) = some (ct, mo, mc) := by
  have hlen := footerBytes_length ct mo mc
  have htot : (pre ++ footerBytes ct mo mc).length = pre.length + 20 := by
    simp [hlen]
  have hdrop : (pre ++ footerBytes ct mo mc).drop
      (pre.length + 20 - 20) = footerBytes ct mo mc := by
    have : pre.length + 20 - 20 = pre.length := by omega
    rw [this]
    exact List.drop_left pre _
  rw [readFooter, htot, if_neg (by omega), hdrop]
  have e1 : footerBytes ct mo mc
      = u32le ct ++ (u64le mo ++ (u64le mc ++ [])) := by
    simp [footerBytes]
  rw [e1, takeU32_u32le _ _ hct]
  simp only [takeU64_u64le _ _ hmo, takeU64_u64le _ _ hmc]

theorem readMetadataCore_writeMetadata (archive : Bytes)
    (ms : List meta.FileMeta) (ct : Nat)
    (hm : ∀ m ∈ ms, ValidMeta m) (hct : ct < 2 ^ 32)
    (hmo : archive.length < 2 ^ 64) (hmc : ms.length < 2 ^ 64) :
    readMetadataCore (writeMetadata archive ms ct)
      = some ⟨(ms.filter fun m => m.isOriginal).length,
              ms.filter (fun m => m.isOriginal),
              (ms.filter fun m => m.isDuplicate).length,
              (ms.filter fun m => m.isDuplicate).map
                (fun m => ⟨-1, m.hash, m.relativePath⟩),
              ct⟩ := by
  have hO : ∀ m ∈ ms.filter (fun m => m.isOriginal), ValidMeta m :=
    fun m hmem => hm m (List.mem_of_mem_filter hmem)
  have hD : ∀ m ∈ ms.filter (fun m => m.isDuplicate), ValidMeta m :=
    fun m hmem => hm m (List.mem_of_mem_filter hmem)
  have hOlen : (ms.filter fun m => m.isOriginal).length < 2 ^ 64 :=
    lt_of_le_of_lt (List.length_filter_le _ _) hmc
  have hDlen : (ms.filter fun m => m.isDuplicate).length < 2 ^ 64 :=
    lt_of_le_of_lt (List.length_filter_le _ _) hmc
  rw [writeMetadata, writeFooter]
  have hfoot := readFooter_append
    (archive
      ++ u64le (ms.filter fun m => m.isOriginal).length
      ++ (ms.filter fun m => m.isOriginal).flatMap writeMetaRecord
      ++ u64le (ms.filter fun m => m.isDuplicate).length
      ++ (ms.filter fun m => m.isDuplicate).flatMap
          (fun m => strBytes m.hash ++ strBytes m.relativePath))
    ct archive.length ms.length hct hmo hmc
  rw [readMetadataCore, hfoot]
  have hdrop :
      ((archive
        ++ u64le (ms.filter fun m => m.isOriginal).length
        ++ (ms.filter fun m => m.isOriginal).flatMap writeMetaRecord
        ++ u64le (ms.filter fun m => m.isDuplicate).length
        ++ (ms.filter fun m => m.isDuplicate).flatMap
            (fun m => strBytes m.hash ++ strBytes m.relativePath))
        ++ footerBytes ct archive.length ms.length).drop archive.length
      = u64le (ms.filter fun m => m.isOriginal).length
        ++ ((ms.filter fun m => m.isOriginal).flatMap writeMetaRecord
        ++ (u64le (ms.filter fun m => m.isDuplicate).length
        ++ ((ms.filter fun m => m.isDuplicate).flatMap
            (fun m => strBytes m.hash ++ strBytes m.relativePath)
        ++ footerBytes ct archive.length ms.length))) := by
    have := List.drop_left archive
      (u64le (ms.filter fun m => m.isOriginal).length
        ++ ((ms.filter fun m => m.isOriginal).flatMap writeMetaRecord
        ++ (u64le (ms.filter fun m => m.isDuplicate).length
        ++ ((ms.filter fun m => m.isDuplicate).flatMap
            (fun m => strBytes m.hash ++ strBytes m.relativePath)
        ++ footerBytes ct archive.length ms.length))))
    rw [← this]
    congr 1
    simp [List.append_assoc]
  simp only [hdrop, takeU64_u64le _ _ hOlen,
    readOriginalRecords_flatMap _ _ hO, takeU64_u64le _ _ hDlen,
    readDuplicateRecords_flatMap _ _ hD]

theorem readMetadata_writeMetadata (archive : Bytes)
    (ms : List meta.FileMeta) (ct : Nat)
    (hm : ∀ m ∈ ms, ValidMeta m) (hct : ct < 2 ^ 32)
    (hmo : archive.length < 2 ^ 64) (hmc : ms.length < 2 ^ 64) :
    readMetadata (writeMetadata archive ms ct)
      = some ((ms.filter fun m => m.isOriginal)
          ++ (ms.filter fun m => m.isDuplicate).map
              (fun m => ⟨-1, m.hash, m.relativePath⟩), ct) := by
  rw [readMetadata, readMetadataCore_writeMetadata archive ms ct hm hct hmo hmc]
  rfl

end io

namespace threading

/-- The default argument of `ThreadPool::getInstance`
(`include/ThreadPool.h`, line 35): `std::thread::hardware_concurrency() - 1`,
evaluated in `unsigned int` arithmetic (wrap-around at `2^32`).
`ThreadPool::getInstance` (`src/ThreadPool.cpp`, lines 10–16) passes the
value to the constructor unchanged — there is no clamping. -/
def defaultNumThreads (hardwareConcurrency : Nat) : Nat :=
  (hardwareConcurrency % 2 ^ 32 + (2 ^ 32 - 1)) % 2 ^ 32

/-- `ThreadPool::ThreadPool` (`src/ThreadPool.cpp`, lines 19–46) spawns
exactly `numThreads` worker threads, so `getThreadCount()` of a pool
created with `numThreads` is `numThreads` itself. -/
def poolThreadCount (numThreads : Nat) : Nat := numThreads

end threading

namespace compression

/-- The codec identities of `include/CompressorFactory.h`. -/
inductive CompressionType
  | BROTLI
  | ZSTD
  | ZLIB
  | NONE
deriving DecidableEq, Repr

/-- The enumerator list the compiler sees for a given build
configuration (`include/CompressorFactory.h`, lines 12–23): each of
`BROTLI`, `ZSTD`, `ZLIB` is declared only under its feature gate
(`HAVE_BROTLI`/`HAVE_ZSTD`/`HAVE_ZLIB`), `NONE` unconditionally, in
this declaration order. -/
def declaredEnumerators (haveBrotli haveZstd haveZlib : Bool) :
    List CompressionType :=
  (if haveBrotli then [CompressionType.BROTLI] else [])
    ++ (if haveZstd then [CompressionType.ZSTD] else [])
    ++ (if haveZlib then [CompressionType.ZLIB] else [])
    ++ [CompressionType.NONE]

/-- Position of an enumerator in a declaration list: C++ assigns the
consecutive values 0, 1, 2, … to the enumerators actually declared. -/
def enumPosition : List CompressionType → CompressionType → Option Nat
  | [], _ => none
  | d :: ds, c =>
    if d = c then some 0 else (enumPosition ds c).map (· + 1)

/-- The integer identity value a codec gets in a given build
configuration. -/
def enumValue (haveBrotli haveZstd haveZlib : Bool)
    (c : CompressionType) : Option Nat :=
  enumPosition (declaredEnumerators haveBrotli haveZstd haveZlib) c

/-- A regular file of the input tree: path relative to the root, and
byte contents.  `io::scanDirectory` (`src/IO.cpp`, lines 159–170)
returns every regular file under the root — its loop has no size
filter, so the scan list is the full list of regular files. -/
structure FSFile where
  relPath : Bytes
  content : Bytes
deriving DecidableEq, Repr

/-- `std::unordered_map` assignment `m[k] = v`. -/
def mapUpdate {β : Type} (m : Bytes → Option β) (k : Bytes) (v : β) :
    Bytes → Option β :=
  fun q => if q = k then some v else m q

/-- The guarded insertion `if (m.find(k) == m.end()) m[k] = v` used for
the first-occurrence map. -/
def mapInsertIfAbsent {β : Type} (m : Bytes → Option β) (k : Bytes)
    (v : β) : Bytes → Option β :=
  match m k with
  | some _ => m
  | none => mapUpdate m k v

/-- `FileCompressor::computeHashes` (`src/FileCompressor.cpp`,
lines 17–40): hash every file and populate, under one lock,
`pathToHashMap[rel] = hash` and, first writer wins,
`hashToPathMap[hash] = rel`.  The `parallelFor` is modelled as a fold
over `order`, the completion order of the hashing tasks — a permutation
of the scanned list chosen by the scheduler.  Returns
`(hashToPathMap, pathToHashMap)`. -/
def computeHashes (h : Bytes → Bytes) (order : List FSFile) :
    (Bytes → Option Bytes) × (Bytes → Option Bytes) :=
  order.foldl
    (fun maps f =>
      (mapInsertIfAbsent maps.1 (h f.content) f.relPath,
       mapUpdate maps.2 f.relPath (h f.content)))
    (fun _ => none, fun _ => none)

/-- `FileCompressor::FileGroup` (`include/FileCompressor.h`). -/
structure FileGroup where
  uniqueFiles : List FSFile
  duplicateFiles : List FSFile
deriving DecidableEq, Repr

/-- The test of `FileCompressor::groupFiles` (`src/FileCompressor.cpp`,
line 54): `hashToPathMap.at(pathToHashMap.at(relativePath)) ==
relativePath`. -/
def isFirstOccurrence (p2h h2p : Bytes → Option Bytes) (f : FSFile) :
    Bool :=
  decide (h2p ((p2h f.relPath).getD []) = some f.relPath)

/-- `FileCompressor::groupFiles` (`src/FileCompressor.cpp`,
lines 42–62): walk the scan list in order; the file whose relative path
is the one recorded for its hash is unique, the rest are duplicates. -/
def groupFiles (files : List FSFile) (p2h h2p : Bytes → Option Bytes) :
    FileGroup :=
  { uniqueFiles := files.filter (isFirstOccurrence p2h h2p),
    duplicateFiles := files.filter fun f => ¬ isFirstOccurrence p2h h2p f }

/-- The record populated by `FileCompressor::processFiles`
(`src/FileCompressor.cpp`, lines 91–161): this translation unit's
metadata record carries `compressedSize` and `originalSize` in addition
to offset, hash and relative path; `compressedSize == 0` marks a record
without its own payload. -/
structure FCMeta where
  dataOffset : Nat
  hash : Bytes
  relativePath : Bytes
  compressedSize : Nat
  originalSize : Nat
deriving DecidableEq, Repr

/-- A streaming codec (the `Compressor` interface of
`include/Compressor.h`): `compressStream` maps the input bytes to one
frame appended to the output; `decompressStream` reads one frame from
the front of its input, returning the decoded bytes (its C++ return
value is their count), or `none` on an engine failure (which the C++
surfaces as an exception). -/
structure StreamCodec where
  compressStream : Bytes → Bytes
  decompressStream : Bytes → Option Bytes

/-- The codec capability contract (spec §4.C): decoding reads back
exactly the frame `compressStream` produced, without over-consuming —
bytes past the frame do not change the result — and a nonempty input
produces a nonempty frame. -/
def FrameCodec (c : StreamCodec) : Prop :=
  (∀ x rest, c.decompressStream (c.compressStream x ++ rest) = some x)
    ∧ ∀ x, x ≠ [] → c.compressStream x ≠ []

/-- The shared state mutated by `FileCompressor::processFiles`: the
archive stream, `hashToOffsetMap`, and the metadata vector. -/
structure CompressState where
  archive : Bytes
  hashToOffsetMap : Bytes → Option Nat
  metadata : List FCMeta

/-- One unique-file task of `FileCompressor::processFiles`
(`src/FileCompressor.cpp`, lines 84–144).  An empty file contributes no
archive bytes and a record with both sizes 0; a nonempty file is
streamed through the codec at the current end of the archive
(`dataOffset = tellp()` under the archive mutex) and gets a record with
`compressedSize` the frame length and `originalSize` the file size. -/
def processUniqueFile (codec : StreamCodec) (h : Bytes → Bytes)
    (st : CompressState) (f : FSFile) : CompressState :=
  if f.content.length = 0 then
    { archive := st.archive,
      hashToOffsetMap :=
        mapUpdate st.hashToOffsetMap (h f.content) st.archive.length,
      metadata := st.metadata
        ++ [⟨st.archive.length, h f.content, f.relPath, 0, 0⟩] }
  else
    let dataOffset := st.archive.length
    let frame := codec.compressStream f.content
    { archive := st.archive ++ frame,
      hashToOffsetMap :=
        mapUpdate st.hashToOffsetMap (h f.content) dataOffset,
      metadata := st.metadata
        ++ [⟨dataOffset, h f.content, f.relPath, frame.length,
             f.content.length⟩] }

/-- One duplicate-file task of `FileCompressor::processFiles`
(`src/FileCompressor.cpp`, lines 147–168): look up the stored offset by
hash (`operator[]` default-constructs 0 when absent) and push a record
with `compressedSize = 0`. -/
def processDuplicateFile (h : Bytes → Bytes) (st : CompressState)
    (f : FSFile) : CompressState :=
  { st with metadata := st.metadata
      ++ [⟨(st.hashToOffsetMap (h f.content)).getD 0, h f.content,
           f.relPath, 0, f.content.length⟩] }

/-- `FileCompressor::processFiles`: the unique pass, then the duplicate
pass.  The two `parallelFor`s are folds over `uniqOrder` and
`dupOrder`, the completion orders of the tasks (permutations of the two
groups); the second pass starts only after the first
completes (`parallelFor` blocks). -/
def processFiles (codec : StreamCodec) (h : Bytes → Bytes)
    (uniqOrder dupOrder : List FSFile) (archive0 : Bytes) :
    CompressState :=
  dupOrder.foldl (processDuplicateFile h)
    (uniqOrder.foldl (processUniqueFile codec h)
      ⟨archive0, fun _ => none, []⟩)

/-- Serialisation of one `FCMeta` record, in field order. -/
def fcRecordBytes (m : FCMeta) : Bytes :=
  io.u64le m.dataOffset ++ io.strBytes m.hash ++ io.strBytes m.relativePath
    ++ io.u64le m.compressedSize ++ io.u64le m.originalSize

/-- Modelled from the spec: the two-argument `io::writeMetadata(archive,
metadata)` that `FileCompressor::compress` calls (line 183) has no
definition in the sources — `src/IO.cpp` defines a different variant
whose records lack the `compressedSize`/`originalSize` fields this
translation unit uses.  Following the spec's serialisation scheme
(§4.D: little-endian fixed-width integers, length-prefixed strings;
§9 notes this source variant stores the per-record sizes): the record
count, the records, then a fixed footer carrying `metaOffset` (the
write position on entry) and the count. -/
def writeMetadataFC (archive : Bytes) (ms : List FCMeta) : Bytes :=
  archive ++ io.u64le ms.length ++ ms.flatMap fcRecordBytes
    ++ io.u64le archive.length ++ io.u64le ms.length

/-- Parse one `FCMeta` record. -/
def readFCRecord (bs : Bytes) : Option (FCMeta × Bytes) :=
  match io.takeU64 bs with
  | none => none
  | some (off, r1) =>
    match io.takeStr r1 with
    | none => none
    | some (hsh, r2) =>
      match io.takeStr r2 with
      | none => none
      | some (p, r3) =>
        match io.takeU64 r3 with
        | none => none
        | some (cs, r4) =>
          match io.takeU64 r4 with
          | none => none
          | some (os, r5) => some (⟨off, hsh, p, cs, os⟩, r5)

/-- Parse a run of `FCMeta` records. -/
def readFCRecords : Nat → Bytes → Option (List FCMeta × Bytes)
  | 0, bs => some ([], bs)
  | k + 1, bs =>
    match readFCRecord bs with
    | none => none
    | some (m, rest) =>
      match readFCRecords k rest with
      | none => none
      | some (ms, rest2) => some (m :: ms, rest2)

/-- Modelled from the spec: the one-argument `io::readMetadata(archive)`
that `FileCompressor::decompress` calls (line 327), the mirror of
`writeMetadataFC`: read the 16-byte footer from the end of the file
(`metaOffset`, count), seek to `metaOffset`, read the count and the
records. -/
def readMetadataFC (bs : Bytes) : Option (List FCMeta) :=
  if bs.length < 16 then none
  else
    match io.takeU64 (bs.drop (bs.length - 16)) with
    | none => none
    | some (metaOffset, _) =>
      match io.takeU64 (bs.drop metaOffset) with
      | none => none
      | some (count, s1) =>
        match readFCRecords count s1 with
        | none => none
        | some (ms, _) => some ms

/-- `FileCompressor::compress` (`src/FileCompressor.cpp`,
lines 173–186), parametrised by the schedules of its three parallel
loops: write the 4-byte codec id at the head of the archive, scan
(which yields `files`), hash, group, process, and append the metadata
and footer. -/
def compressWithSchedule (codec : StreamCodec) (h : Bytes → Bytes)
    (ct : Nat) (uniqOrder dupOrder : List FSFile) : Bytes :=
  let st := processFiles codec h uniqOrder dupOrder (io.u32le ct)
  writeMetadataFC st.archive st.metadata

/-- `FileCompressor::compress` under the schedule in which every task
completes in issue order: the hashing pass completes in scan order and
the two processing passes in group order. -/
def compress (codec : StreamCodec) (h : Bytes → Bytes) (ct : Nat)
    (files : List FSFile) : Bytes :=
  let maps := computeHashes h files
  let fg := groupFiles files maps.2 maps.1
  compressWithSchedule codec h ct fg.uniqueFiles fg.duplicateFiles

/-- `FileCompressor::groupMetadata` (`src/FileCompressor.cpp`,
lines 188–197): bucket the records by hash.  The `unordered_map`
iterates in an unspecified order; the model lists one bucket per
distinct hash, each bucket holding its records in metadata order. -/
def groupMetadata (ms : List FCMeta) : List (Bytes × List FCMeta) :=
  (ms.map (fun m => m.hash)).dedup.map
    (fun k => (k, ms.filter (fun m => m.hash = k)))

/-- The per-record part of the group loop in
`FileCompressor::decompressFiles` (`src/FileCompressor.cpp`,
lines 260–317).  `origMeta?` is the group's `originalMeta` pointer.
A record of size 0 just creates an empty file.  Otherwise the original
frame is decoded from `originalMeta->dataOffset` (an `ifstream` seek on
an open file succeeds for any non-negative offset, so the `!good()`
early return cannot fire); a decode failure or a decoded-size mismatch
throws out of the task — modelled as `none` —, and a hash mismatch
removes the output file and records the path as an error, then
continues with the next record. -/
def extractMetas (codec : StreamCodec) (h : Bytes → Bytes)
    (archive : Bytes) (origMeta? : Option FCMeta) (groupHash : Bytes) :
    List FCMeta → Option (List FSFile × List Bytes)
  | [] => some ([], [])
  | m :: ms =>
    if m.originalSize = 0 then
      (extractMetas codec h archive origMeta? groupHash ms).map
        (fun r => (⟨m.relativePath, []⟩ :: r.1, r.2))
    else
      match origMeta? with
      | none => none
      | some om =>
        match codec.decompressStream (archive.drop om.dataOffset) with
        | none => none
        | some decoded =>
          if 0 < om.originalSize ∧ decoded.length ≠ om.originalSize then
            none
          else if h decoded = groupHash then
            (extractMetas codec h archive origMeta? groupHash ms).map
              (fun r => (⟨m.relativePath, decoded⟩ :: r.1, r.2))
          else
            (extractMetas codec h archive origMeta? groupHash ms).map
              (fun r => (r.1, m.relativePath :: r.2))

/-- One group task of `FileCompressor::decompressFiles`
(`src/FileCompressor.cpp`, lines 231–318): find the group's original
(`compressedSize > 0`); if there is none and the group has no empty
file, log "Could not find original file" and skip the group
(non-fatally); otherwise run the record loop. -/
def extractGroup (codec : StreamCodec) (h : Bytes → Bytes)
    (archive : Bytes) (g : Bytes × List FCMeta) :
    Option (List FSFile × List Bytes) :=
  let origMeta? := g.2.find? (fun m => 0 < m.compressedSize)
  if origMeta?.isNone ∧ ¬ g.2.any (fun m => m.originalSize = 0) then
    some ([], [g.1])
  else
    extractMetas codec h archive origMeta? g.1 g.2

/-- `FileCompressor::decompressFiles`: the `parallelFor` over the
groups, each group task contributing its extracted files and logged
errors; an exception in any task propagates out of the call
(`none`). -/
def decompressFiles (codec : StreamCodec) (h : Bytes → Bytes)
    (archive : Bytes) : List (Bytes × List FCMeta) →
    Option (List FSFile × List Bytes)
  | [] => some ([], [])
  | g :: gs =>
    match extractGroup codec h archive g with
    | none => none
    | some r =>
      (decompressFiles codec h archive gs).map
        (fun r2 => (r.1 ++ r2.1, r.2 ++ r2.2))

/-- `FileCompressor::decompress` (`src/FileCompressor.cpp`,
lines 321–332): read the 4-byte codec id from the head of the archive,
read the metadata table from the footer, group by hash, create the
codec for the id (`createCompressor` throws on an unavailable id —
`none`), and extract.  Returns the extracted files and the quarantined
(hash-mismatch) paths. -/
def decompress (codecOf : Nat → Option StreamCodec)
    (h : Bytes → Bytes) (archiveBytes : Bytes) :
    Option (List FSFile × List Bytes) :=
  match io.takeU32 archiveBytes with
  | none => none
  | some (ct, _) =>
    match readMetadataFC archiveBytes with
    | none => none
    | some ms =>
      match codecOf ct with
      | none => none
      | some codec =>
        decompressFiles codec h archiveBytes (groupMetadata ms)

theorem computeHashes_foldl (h : Bytes → Bytes) :
    ∀ (order : List FSFile) (a b : Bytes → Option Bytes),
      order.foldl
          (fun maps f =>
            (mapInsertIfAbsent maps.1 (h f.content) f.relPath,
             mapUpdate maps.2 f.relPath (h f.content)))
          (a, b)
        = (order.foldl
            (fun m f => mapInsertIfAbsent m (h f.content) f.relPath) a,
           order.foldl
            (fun m f => mapUpdate m f.relPath (h f.content)) b) := by
  intro order
  induction order with
  | nil => intro a b; rfl
  | cons x xs ih => intro a b; simp only [List.foldl_cons]; exact ih _ _

theorem computeHashes_fst (h : Bytes → Bytes) (order : List FSFile) :
    (computeHashes h order).1
      = order.foldl
          (fun m f => mapInsertIfAbsent m (h f.content) f.relPath)
          (fun _ => none) := by
  rw [computeHashes, computeHashes_foldl]

theorem computeHashes_snd (h : Bytes → Bytes) (order : List FSFile) :
    (computeHashes h order).2
      = order.foldl (fun m f => mapUpdate m f.relPath (h f.content))
          (fun _ => none) := by
  rw [computeHashes, computeHashes_foldl]

theorem foldl_mapUpdate_preserve (h : Bytes → Bytes) :
    ∀ (order : List FSFile) (m0 : Bytes → Option Bytes) (k v : Bytes),
      m0 k = some v →
      (∀ g ∈ order, g.relPath = k → h g.content = v) →
      (order.foldl (fun m g => mapUpdate m g.relPath (h g.content)) m0) k
        = some v := by
  intro order
  induction order with
  | nil => intro m0 k v hv _; simpa using hv
  | cons g rest ih =>
    intro m0 k v hv hall
    rw [List.foldl_cons]
    apply ih
    · rw [mapUpdate]
      by_cases hk : k = g.relPath
      · rw [if_pos hk, hall g (by simp) hk.symm]
      · rw [if_neg hk]; exact hv
    · intro x hx hpx; exact hall x (by simp [hx]) hpx

theorem pathToHash_lookup (h : Bytes → Bytes) :
    ∀ (order : List FSFile) (m0 : Bytes → Option Bytes) (f : FSFile),
      f ∈ order →
      (∀ g ∈ order, g.relPath = f.relPath → h g.content = h f.content) →
      (order.foldl (fun m g => mapUpdate m g.relPath (h g.content)) m0)
          f.relPath
        = some (h f.content) := by
  intro order
  induction order with
  | nil => intro m0 f hf; exact absurd hf (by simp)
  | cons g rest ih =>
    intro m0 f hf hall
    rw [List.foldl_cons]
    by_cases hfr : f ∈ rest
    · exact ih _ f hfr (fun x hx hpx => hall x (by simp [hx]) hpx)
    · have hfg : f = g := by
        rcases List.mem_cons.mp hf with h1 | h1
        · exact h1
        · exact absurd h1 hfr
      subst hfg
      apply foldl_mapUpdate_preserve
      · rw [mapUpdate, if_pos rfl]
      · intro x hx hpx; exact hall x (by simp [hx]) hpx

theorem hashToPath_lookup (h : Bytes → Bytes) :
    ∀ (order : List FSFile) (m0 : Bytes → Option Bytes) (k : Bytes),
      (order.foldl
          (fun m g => mapInsertIfAbsent m (h g.content) g.relPath) m0) k
        = match m0 k with
          | some v => some v
          | none =>
            (order.find? (fun g => decide (h g.content = k))).map
              (fun g => g.relPath) := by
  intro order
  induction order with
  | nil => intro m0 k; cases hm : m0 k <;> simp [hm]
  | cons g rest ih =>
    intro m0 k
    rw [List.foldl_cons, ih]
    by_cases hgk : h g.content = k
    · rw [hgk]
      cases hm : m0 k with
      | some v =>
        have hins : mapInsertIfAbsent m0 k g.relPath k = some v := by
          simp [mapInsertIfAbsent, hm]
        simp [hins, hm]
      | none =>
        have hins : mapInsertIfAbsent m0 k g.relPath k = some g.relPath := by
          simp [mapInsertIfAbsent, hm, mapUpdate]
        simp [hins, hm, List.find?_cons, hgk]
    · have hins : mapInsertIfAbsent m0 (h g.content) g.relPath k = m0 k := by
        cases hg0 : m0 (h g.content) with
        | some w => simp [mapInsertIfAbsent, hg0]
        | none =>
          simp only [mapInsertIfAbsent, hg0, mapUpdate]
          rw [if_neg (fun hc => hgk hc.symm)]
      rw [hins]
      have hfind : (g :: rest).find? (fun g => decide (h g.content = k))
          = rest.find? (fun g => decide (h g.content = k)) := by
        rw [List.find?_cons_of_neg]
        simp [hgk]
      rw [hfind]

theorem pathToHashMap_eq (h : Bytes → Bytes) (order : List FSFile)
    (f : FSFile) (hf : f ∈ order)
    (hall : ∀ g ∈ order, g.relPath = f.relPath →
      h g.content = h f.content) :
    (computeHashes h order).2 f.relPath = some (h f.content) := by
  rw [computeHashes_snd]
  exact pathToHash_lookup h order _ f hf hall

theorem hashToPathMap_eq (h : Bytes → Bytes) (order : List FSFile)
    (k : Bytes) :
    (computeHashes h order).1 k
      = (order.find? (fun g => decide (h g.content = k))).map
          (fun g => g.relPath) := by
  rw [computeHashes_fst, hashToPath_lookup]

theorem isFirstOccurrence_iff (h : Bytes → Bytes) (order : List FSFile)
    (f : FSFile) (hf : f ∈ order)
    (hall : ∀ g ∈ order, g.relPath = f.relPath →
      h g.content = h f.content) :
    isFirstOccurrence (computeHashes h order).2 (computeHashes h order).1 f
        = true
      ↔ (order.find? (fun g => decide (h g.content = h f.content))).map
            (fun g => g.relPath)
          = some f.relPath := by
  rw [isFirstOccurrence, pathToHashMap_eq h order f hf hall]
  rw [show (some (h f.content)).getD [] = h f.content from rfl]
  rw [hashToPathMap_eq]
  exact decide_eq_true_iff

theorem find?_class_mem (h : Bytes → Bytes) (order : List FSFile)
    (k : Bytes) (f : FSFile) (hf : f ∈ order) (hk : h f.content = k) :
    ∃ g0, order.find? (fun g => decide (h g.content = k)) = some g0 ∧
      g0 ∈ order ∧ h g0.content = k := by
  have hsome : (order.find? (fun g => decide (h g.content = k))).isSome := by
    rw [List.find?_isSome]
    exact ⟨f, hf, by simp [hk]⟩
  obtain ⟨g0, hg0⟩ := Option.isSome_iff_exists.mp hsome
  refine ⟨g0, hg0, List.mem_of_find?_eq_some hg0, ?_⟩
  have := List.find?_some hg0
  simpa using this

/-- Helper: a duplicate-free list all of whose members equal `a`, with
`a` a member, is `[a]`. -/
theorem nodup_all_eq_singleton {α : Type} {l : List α} {a : α}
    (hnd : l.Nodup) (ha : a ∈ l) (hall : ∀ b ∈ l, b = a) : l = [a] := by
  cases l with
  | nil => exact absurd ha (by simp)
  | cons x xs =>
    have hx : x = a := hall x (by simp)
    cases xs with
    | nil => rw [hx]
    | cons y ys =>
      have hy : y = a := hall y (by simp)
      rw [List.nodup_cons] at hnd
      exact absurd (by rw [hx, ← hy]; simp : x ∈ y :: ys) hnd.1

/-- With the maps built from any completion order `hashOrder` (a
permutation of the scan list), a scanned file is classified unique iff
it is the file `digestToFirstPath` recorded for its digest. -/
theorem unique_iff_first (h : Bytes → Bytes)
    (files hashOrder : List FSFile) (f : FSFile)
    (hperm : hashOrder.Perm files)
    (hnd : (files.map FSFile.relPath).Nodup)
    (hf : f ∈ files) :
    isFirstOccurrence (computeHashes h hashOrder).2
        (computeHashes h hashOrder).1 f = true
      ↔ hashOrder.find? (fun g => decide (h g.content = h f.content))
          = some f := by
  have hfo : f ∈ hashOrder := hperm.mem_iff.mpr hf
  have hndo : (hashOrder.map FSFile.relPath).Nodup :=
    ((hperm.map FSFile.relPath).nodup_iff).mpr hnd
  have hinj := List.inj_on_of_nodup_map hndo
  have hall : ∀ g ∈ hashOrder, g.relPath = f.relPath →
      h g.content = h f.content := by
    intro g hg hp
    rw [hinj hg hfo hp]
  rw [isFirstOccurrence_iff h hashOrder f hfo hall]
  constructor
  · intro hmap
    obtain ⟨g0, hg0, hg0mem, _⟩ :=
      find?_class_mem h hashOrder (h f.content) f hfo rfl
    rw [hg0] at hmap
    have hpath : g0.relPath = f.relPath := by simpa using hmap
    rwa [hinj hg0mem hfo hpath] at hg0
  · intro hf'
    rw [hf']
    rfl

/-- Exactly one scanned file per digest class is classified unique: the
one recorded in `digestToFirstPath`. -/
theorem uniqueFiles_class_singleton (h : Bytes → Bytes)
    (files hashOrder : List FSFile) (k : Bytes)
    (hperm : hashOrder.Perm files)
    (hnd : (files.map FSFile.relPath).Nodup)
    (f : FSFile) (hf : f ∈ files) (hk : h f.content = k) :
    ∃ g0, hashOrder.find? (fun g => decide (h g.content = k)) = some g0 ∧
      g0 ∈ files ∧ h g0.content = k ∧
      (groupFiles files (computeHashes h hashOrder).2
          (computeHashes h hashOrder).1).uniqueFiles.filter
          (fun u => decide (h u.content = k))
        = [g0] := by
  have hfo : f ∈ hashOrder := hperm.mem_iff.mpr hf
  obtain ⟨g0, hg0, hg0mem, hg0k⟩ :=
    find?_class_mem h hashOrder k f hfo hk
  have hg0files : g0 ∈ files := hperm.mem_iff.mp hg0mem
  refine ⟨g0, hg0, hg0files, hg0k, ?_⟩
  have hndf : files.Nodup := List.Nodup.of_map _ hnd
  have hfilnd : ((groupFiles files (computeHashes h hashOrder).2
      (computeHashes h hashOrder).1).uniqueFiles.filter
      (fun u => decide (h u.content = k))).Nodup := by
    rw [groupFiles]
    exact (hndf.filter _).filter _
  apply nodup_all_eq_singleton hfilnd
  · rw [groupFiles]
    simp only [List.mem_filter]
    refine ⟨⟨hg0files, ?_⟩, by simp [hg0k]⟩
    rw [unique_iff_first h files hashOrder g0 hperm hnd hg0files, hg0k]
    exact hg0
  · intro u hu
    rw [groupFiles] at hu
    simp only [List.mem_filter] at hu
    obtain ⟨⟨humem, huniq⟩, huk⟩ := hu
    have huk' : h u.content = k := by simpa using huk
    rw [unique_iff_first h files hashOrder u hperm hnd humem, huk'] at huniq
    rw [hg0] at huniq
    exact (Option.some.injEq _ _ ▸ huniq).symm ▸ rfl

/-- A codec frame for `content` sits at byte offset `off` of the
archive (possibly followed by more bytes). -/
def FrameAt (codec : StreamCodec) (archive : Bytes) (off : Nat)
    (content : Bytes) : Prop :=
  off ≤ archive.length ∧
    ∃ rest, archive.drop off = codec.compressStream content ++ rest

theorem FrameAt.frameAppend {codec : StreamCodec} {archive : Bytes}
    {off : Nat} {content : Bytes} (ext : Bytes) :
    FrameAt codec archive off content →
    FrameAt codec (archive ++ ext) off content := by
  rintro ⟨hle, rest, hdrop⟩
  refine ⟨by simp; omega, rest ++ ext, ?_⟩
  rw [List.drop_append_eq_append_drop, Nat.sub_eq_zero_of_le hle,
    List.drop_zero, hdrop, List.append_assoc]

/-- What `processFiles` records for a unique file: matching hash, path
and size fields, and — for a nonempty file — its own codec frame in the
archive with `compressedSize` the frame length. -/
def UniqueMetaOk (codec : StreamCodec) (h : Bytes → Bytes)
    (archive : Bytes) (u : FSFile) (m : FCMeta) : Prop :=
  m.hash = h u.content ∧ m.relativePath = u.relPath ∧
    m.originalSize = u.content.length ∧
    (if u.content.length = 0 then
      m.compressedSize = 0 ∧ m.dataOffset ≤ archive.length
     else m.compressedSize = (codec.compressStream u.content).length ∧
       FrameAt codec archive m.dataOffset u.content)

/-- What `processFiles` records for a duplicate file. -/
def DupMetaOk (h : Bytes → Bytes) (d : FSFile) (m : FCMeta) : Prop :=
  m.hash = h d.content ∧ m.relativePath = d.relPath ∧
    m.originalSize = d.content.length ∧ m.compressedSize = 0

theorem UniqueMetaOk.metaAppend {codec : StreamCodec} {h : Bytes → Bytes}
    {archive : Bytes} {u : FSFile} {m : FCMeta} (ext : Bytes) :
    UniqueMetaOk codec h archive u m →
    UniqueMetaOk codec h (archive ++ ext) u m := by
  rintro ⟨h1, h2, h3, h4⟩
  refine ⟨h1, h2, h3, ?_⟩
  split
  · rename_i hz
    rw [if_pos hz] at h4
    refine ⟨h4.1, ?_⟩
    have := h4.2
    simp only [List.length_append]
    omega
  · rename_i hne
    rw [if_neg hne] at h4
    exact ⟨h4.1, h4.2.frameAppend ext⟩

theorem forall₂_mem_left {α β : Type} {R : α → β → Prop} :
    ∀ {as : List α} {bs : List β}, List.Forall₂ R as bs →
      ∀ a ∈ as, ∃ b ∈ bs, R a b := by
  intro as bs hab
  induction hab with
  | nil => intro a ha; exact absurd ha (by simp)
  | cons hR _ ih =>
    intro a ha
    rcases List.mem_cons.mp ha with ha | ha
    · subst ha; exact ⟨_, by simp, hR⟩
    · obtain ⟨b, hb, hRb⟩ := ih a ha
      exact ⟨b, by simp [hb], hRb⟩

theorem forall₂_mem_right {α β : Type} {R : α → β → Prop} :
    ∀ {as : List α} {bs : List β}, List.Forall₂ R as bs →
      ∀ b ∈ bs, ∃ a ∈ as, R a b := by
  intro as bs hab
  induction hab with
  | nil => intro b hb; exact absurd hb (by simp)
  | cons hR _ ih =>
    intro b hb
    rcases List.mem_cons.mp hb with hb | hb
    · subst hb; exact ⟨_, by simp, hR⟩
    · obtain ⟨a, ha, hRa⟩ := ih b hb
      exact ⟨a, by simp [ha], hRa⟩

theorem forall₂_filter {α β : Type} {R : α → β → Prop}
    (p : α → Bool) (q : β → Bool)
    (hpq : ∀ a b, R a b → p a = q b) :
    ∀ {as : List α} {bs : List β}, List.Forall₂ R as bs →
      List.Forall₂ R (as.filter p) (bs.filter q) := by
  intro as bs hab
  induction hab with
  | nil => simp
  | cons hR htail ih =>
    rename_i a b as' bs'
    by_cases hp : p a = true
    · have hq : q b = true := hpq a b hR ▸ hp
      rw [List.filter_cons_of_pos hp, List.filter_cons_of_pos hq]
      exact List.Forall₂.cons hR ih
    · have hq : ¬ q b = true := fun hqq => hp (hpq a b hR ▸ hqq)
      rw [List.filter_cons_of_neg (by simpa using hp),
        List.filter_cons_of_neg (by simpa using hq)]
      exact ih

/-- The unique-file pass: the archive grows by the frames of the
nonempty files in pass order, and one record per file is appended,
satisfying `UniqueMetaOk` with respect to the final archive. -/
theorem processUniques_spec (codec : StreamCodec) (h : Bytes → Bytes) :
    ∀ (us : List FSFile) (st0 : CompressState),
      (us.foldl (processUniqueFile codec h) st0).archive
          = st0.archive
            ++ (us.filter (fun u => !(u.content.length = 0))).flatMap
                (fun u => codec.compressStream u.content) ∧
      ∃ ms, (us.foldl (processUniqueFile codec h) st0).metadata
            = st0.metadata ++ ms ∧
        List.Forall₂
          (UniqueMetaOk codec h
            ((us.foldl (processUniqueFile codec h) st0).archive))
          us ms := by
  intro us
  induction us with
  | nil =>
    intro st0
    exact ⟨by simp, [], by simp, List.Forall₂.nil⟩
  | cons u rest ih =>
    intro st0
    rw [List.foldl_cons]
    obtain ⟨iha, ms1, ihm, ihf⟩ := ih (processUniqueFile codec h st0 u)
    by_cases hu : u.content.length = 0
    · have hst : processUniqueFile codec h st0 u
          = { archive := st0.archive,
              hashToOffsetMap := mapUpdate st0.hashToOffsetMap
                (h u.content) st0.archive.length,
              metadata := st0.metadata
                ++ [⟨st0.archive.length, h u.content, u.relPath, 0, 0⟩] } := by
        rw [processUniqueFile, if_pos hu]
      rw [hst] at iha ihm ihf ⊢
      refine ⟨by rw [iha, List.filter_cons_of_neg (by simpa using hu)], ?_⟩
      refine ⟨⟨st0.archive.length, h u.content, u.relPath, 0, 0⟩ :: ms1,
        by rw [ihm, List.append_assoc]; rfl, ?_⟩
      refine List.Forall₂.cons ?_ ihf
      refine ⟨rfl, rfl, by simp [hu], ?_⟩
      rw [if_pos hu]
      refine ⟨rfl, ?_⟩
      rw [iha]
      simp
    · have hst : processUniqueFile codec h st0 u
          = { archive := st0.archive ++ codec.compressStream u.content,
              hashToOffsetMap := mapUpdate st0.hashToOffsetMap
                (h u.content) st0.archive.length,
              metadata := st0.metadata
                ++ [⟨st0.archive.length, h u.content, u.relPath,
                     (codec.compressStream u.content).length,
                     u.content.length⟩] } := by
        rw [processUniqueFile, if_neg hu]
      rw [hst] at iha ihm ihf ⊢
      constructor
      · rw [iha, List.filter_cons_of_pos (by simpa using hu),
          List.flatMap_cons, List.append_assoc]
      refine ⟨⟨st0.archive.length, h u.content, u.relPath,
          (codec.compressStream u.content).length, u.content.length⟩ :: ms1,
        by rw [ihm, List.append_assoc]; rfl, ?_⟩
      refine List.Forall₂.cons ?_ ihf
      refine ⟨rfl, rfl, rfl, ?_⟩
      rw [if_neg hu]
      refine ⟨rfl, ?_⟩
      rw [iha]
      have hbase : FrameAt codec
          (st0.archive ++ codec.compressStream u.content)
          st0.archive.length u.content := by
        refine ⟨by simp, [], ?_⟩
        rw [List.drop_append_eq_append_drop, Nat.sub_self,
          List.drop_zero, List.drop_length]
        simp
      exact hbase.frameAppend _

/-- The duplicate-file pass: the archive is untouched and one record
per duplicate is appended, satisfying `DupMetaOk`. -/
theorem processDuplicates_spec (h : Bytes → Bytes) :
    ∀ (ds : List FSFile) (st0 : CompressState),
      (ds.foldl (processDuplicateFile h) st0).archive = st0.archive ∧
      ∃ ms, (ds.foldl (processDuplicateFile h) st0).metadata
            = st0.metadata ++ ms ∧
        List.Forall₂ (DupMetaOk h) ds ms := by
  intro ds
  induction ds with
  | nil => intro st0; exact ⟨rfl, [], by simp, List.Forall₂.nil⟩
  | cons d rest ih =>
    intro st0
    rw [List.foldl_cons]
    obtain ⟨iha, ms1, ihm, ihf⟩ := ih (processDuplicateFile h st0 d)
    refine ⟨iha, ⟨(st0.hashToOffsetMap (h d.content)).getD 0, h d.content,
        d.relPath, 0, d.content.length⟩ :: ms1, ?_,
      List.Forall₂.cons ⟨rfl, rfl, rfl, rfl⟩ ihf⟩
    rw [ihm]
    show (st0.metadata ++ [_]) ++ ms1 = _
    simp

/-- The hash→offset map only ever stores reachable archive offsets. -/
theorem processUniques_map_bound (codec : StreamCodec)
    (h : Bytes → Bytes) :
    ∀ (us : List FSFile) (st0 : CompressState),
      (∀ k v, st0.hashToOffsetMap k = some v → v ≤ st0.archive.length) →
      ∀ k v, (us.foldl (processUniqueFile codec h) st0).hashToOffsetMap k
          = some v →
        v ≤ (us.foldl (processUniqueFile codec h) st0).archive.length := by
  intro us
  induction us with
  | nil => intro st0 h0; exact h0
  | cons u rest ih =>
    intro st0 h0
    rw [List.foldl_cons]
    apply ih
    intro k v hv
    by_cases hu : u.content.length = 0
    · have harch : (processUniqueFile codec h st0 u).archive
          = st0.archive := by
        rw [processUniqueFile, if_pos hu]
      have hmap : (processUniqueFile codec h st0 u).hashToOffsetMap
          = mapUpdate st0.hashToOffsetMap (h u.content)
              st0.archive.length := by
        rw [processUniqueFile, if_pos hu]
      rw [harch]
      rw [hmap] at hv
      simp only [mapUpdate] at hv
      by_cases hk : k = h u.content
      · rw [if_pos hk] at hv
        simp only [Option.some.injEq] at hv
        omega
      · rw [if_neg hk] at hv
        exact h0 k v hv
    · have harch : (processUniqueFile codec h st0 u).archive
          = st0.archive ++ codec.compressStream u.content := by
        rw [processUniqueFile, if_neg hu]
      have hmap : (processUniqueFile codec h st0 u).hashToOffsetMap
          = mapUpdate st0.hashToOffsetMap (h u.content)
              st0.archive.length := by
        rw [processUniqueFile, if_neg hu]
      rw [harch, List.length_append]
      rw [hmap] at hv
      simp only [mapUpdate] at hv
      by_cases hk : k = h u.content
      · rw [if_pos hk] at hv
        simp only [Option.some.injEq] at hv
        omega
      · rw [if_neg hk] at hv
        have := h0 k v hv
        omega

/-- The duplicate pass leaves archive and map untouched and appends
records whose offsets are looked up in the map. -/
theorem processDuplicates_offsets (h : Bytes → Bytes) :
    ∀ (ds : List FSFile) (st0 : CompressState),
      (∀ k v, st0.hashToOffsetMap k = some v → v ≤ st0.archive.length) →
      ∀ m ∈ (ds.foldl (processDuplicateFile h) st0).metadata,
        m ∈ st0.metadata ∨ m.dataOffset ≤ st0.archive.length := by
  intro ds
  induction ds with
  | nil => intro st0 _ m hm; exact Or.inl hm
  | cons d rest ih =>
    intro st0 h0 m hm
    rw [List.foldl_cons] at hm
    have hstep := ih (processDuplicateFile h st0 d)
      (by intro k v hv; exact h0 k v hv) m hm
    rcases hstep with hmem | hoff
    · show m ∈ st0.metadata ∨ _
      have : m ∈ st0.metadata
          ++ [⟨(st0.hashToOffsetMap (h d.content)).getD 0, h d.content,
               d.relPath, 0, d.content.length⟩] := hmem
      rcases List.mem_append.mp this with h1 | h1
      · exact Or.inl h1
      · right
        have hm1 : m = ⟨(st0.hashToOffsetMap (h d.content)).getD 0,
            h d.content, d.relPath, 0, d.content.length⟩ := by
          simpa using h1
        rw [hm1]
        show (st0.hashToOffsetMap (h d.content)).getD 0 ≤ _
        cases hl : st0.hashToOffsetMap (h d.content) with
        | none => simp
        | some v => simpa using h0 _ v hl
    · exact Or.inr hoff

/-- Field ranges under which an `FCMeta` record survives
serialisation. -/
def ValidFCMeta (m : FCMeta) : Prop :=
  m.dataOffset < 2 ^ 64 ∧ m.hash.length < 2 ^ 64 ∧
    m.relativePath.length < 2 ^ 64 ∧ m.compressedSize < 2 ^ 64 ∧
    m.originalSize < 2 ^ 64

instance (m : FCMeta) : Decidable (ValidFCMeta m) := by
  unfold ValidFCMeta; infer_instance

theorem readFCRecord_bytes (m : FCMeta) (rest : Bytes)
    (hm : ValidFCMeta m) :
    readFCRecord (fcRecordBytes m ++ rest) = some (m, rest) := by
  obtain ⟨h1, h2, h3, h4, h5⟩ := hm
  simp only [readFCRecord, fcRecordBytes, List.append_assoc,
    io.takeU64_u64le _ _ h1, io.takeStr_strBytes _ _ h2,
    io.takeStr_strBytes _ _ h3, io.takeU64_u64le _ _ h4,
    io.takeU64_u64le _ _ h5]

theorem readFCRecords_flatMap (ms : List FCMeta) (rest : Bytes)
    (h : ∀ m ∈ ms, ValidFCMeta m) :
    readFCRecords ms.length (ms.flatMap fcRecordBytes ++ rest)
      = some (ms, rest) := by
  induction ms with
  | nil => simp [readFCRecords]
  | cons m ms ih =>
    have hr := readFCRecord_bytes m (ms.flatMap fcRecordBytes ++ rest)
      (h m (by simp))
    have hrec := ih (fun x hx => h x (List.mem_cons_of_mem _ hx))
    simp only [List.flatMap_cons, List.length_cons, List.append_assoc] at *
    simp only [readFCRecords, hr, hrec]

theorem readMetadataFC_writeMetadataFC (archive : Bytes)
    (ms : List FCMeta) (h : ∀ m ∈ ms, ValidFCMeta m)
    (ha : archive.length < 2 ^ 64) (hc : ms.length < 2 ^ 64) :
    readMetadataFC (writeMetadataFC archive ms) = some ms := by
  have hXF : writeMetadataFC archive ms
      = (archive ++ io.u64le ms.length ++ ms.flatMap fcRecordBytes)
        ++ (io.u64le archive.length ++ io.u64le ms.length) := by
    simp [writeMetadataFC, List.append_assoc]
  have hflen : (io.u64le archive.length ++ io.u64le ms.length).length
      = 16 := by
    simp [io.u64le, io.leBytes_length]
  have htot : (writeMetadataFC archive ms).length
      = (archive ++ io.u64le ms.length
          ++ ms.flatMap fcRecordBytes).length + 16 := by
    rw [hXF, List.length_append, hflen]
  have hdropF : (writeMetadataFC archive ms).drop
      ((archive ++ io.u64le ms.length
        ++ ms.flatMap fcRecordBytes).length + 16 - 16)
      = io.u64le archive.length ++ io.u64le ms.length := by
    have harith : (archive ++ io.u64le ms.length
        ++ ms.flatMap fcRecordBytes).length + 16 - 16
        = (archive ++ io.u64le ms.length
            ++ ms.flatMap fcRecordBytes).length := by omega
    rw [harith, hXF]
    exact List.drop_left _ _
  have hdrop2 : (writeMetadataFC archive ms).drop archive.length
      = io.u64le ms.length ++ (ms.flatMap fcRecordBytes
          ++ (io.u64le archive.length ++ io.u64le ms.length)) := by
    have hre : writeMetadataFC archive ms
        = archive ++ (io.u64le ms.length ++ (ms.flatMap fcRecordBytes
            ++ (io.u64le archive.length ++ io.u64le ms.length))) := by
      simp [writeMetadataFC, List.append_assoc]
    rw [hre]
    exact List.drop_left _ _
  rw [readMetadataFC, htot, if_neg (by omega)]
  simp only [hdropF, io.takeU64_u64le _ _ ha, hdrop2,
    io.takeU64_u64le _ _ hc, readFCRecords_flatMap ms _ h]

/-- If the group's original decodes to `c` of the expected size and
hash, every record of the group is materialised with content `c` and
nothing is quarantined. -/
theorem extractMetas_all_ok (codec : StreamCodec) (h : Bytes → Bytes)
    (archive : Bytes) (om : FCMeta) (k c : Bytes)
    (hdec : codec.decompressStream (archive.drop om.dataOffset) = some c)
    (hos : om.originalSize = c.length) (hk : h c = k) (hc : c ≠ []) :
    ∀ (metas : List FCMeta), (∀ m ∈ metas, m.originalSize = c.length) →
      extractMetas codec h archive (some om) k metas
        = some (metas.map (fun m => ⟨m.relativePath, c⟩), []) := by
  have hlen : ¬ c.length = 0 := by
    intro h0; exact hc (List.eq_nil_of_length_eq_zero h0)
  intro metas
  induction metas with
  | nil => intro _; rfl
  | cons m ms ih =>
    intro hall
    have hm := hall m (by simp)
    have hrec := ih (fun x hx => hall x (List.mem_cons_of_mem _ hx))
    simp only [extractMetas, hm, hlen, if_false, hdec, hos, hk, if_true,
      hrec, Option.map_some', List.map_cons]
    simp

/-- A group with no original but only zero-size records materialises
every record as an empty file. -/
theorem extractMetas_all_empty (codec : StreamCodec) (h : Bytes → Bytes)
    (archive : Bytes) (om? : Option FCMeta) (k : Bytes) :
    ∀ (metas : List FCMeta), (∀ m ∈ metas, m.originalSize = 0) →
      extractMetas codec h archive om? k metas
        = some (metas.map (fun m => ⟨m.relativePath, []⟩), []) := by
  intro metas
  induction metas with
  | nil => intro _; rfl
  | cons m ms ih =>
    intro hall
    have hm := hall m (by simp)
    have hrec := ih (fun x hx => hall x (List.mem_cons_of_mem _ hx))
    simp only [extractMetas, hm, if_true, hrec, Option.map_some',
      List.map_cons]

/-- Every file `extractMetas` materialises carries the relative path of
one of the group's records. -/
theorem extractMetas_out_paths (codec : StreamCodec) (h : Bytes → Bytes)
    (archive : Bytes) (om? : Option FCMeta) (k : Bytes) :
    ∀ (metas : List FCMeta) (fs : List FSFile) (es : List Bytes),
      extractMetas codec h archive om? k metas = some (fs, es) →
      ∀ x ∈ fs, ∃ m ∈ metas, x.relPath = m.relativePath := by
  intro metas
  induction metas with
  | nil =>
    intro fs es hout x hx
    simp only [extractMetas, Option.some.injEq, Prod.mk.injEq] at hout
    rw [← hout.1] at hx
    exact absurd hx (by simp)
  | cons m ms ih =>
    intro fs es hout x hx
    rw [show extractMetas codec h archive om? k (m :: ms)
        = if m.originalSize = 0 then
            (extractMetas codec h archive om? k ms).map
              (fun r => (⟨m.relativePath, []⟩ :: r.1, r.2))
          else
            match om? with
            | none => none
            | some om =>
              match codec.decompressStream (archive.drop om.dataOffset) with
              | none => none
              | some decoded =>
                if 0 < om.originalSize ∧ decoded.length ≠ om.originalSize
                then none
                else if h decoded = k then
                  (extractMetas codec h archive om? k ms).map
                    (fun r => (⟨m.relativePath, decoded⟩ :: r.1, r.2))
                else
                  (extractMetas codec h archive om? k ms).map
                    (fun r => (r.1, m.relativePath :: r.2))
      from rfl] at hout
    split at hout
    · cases hrec : extractMetas codec h archive om? k ms with
      | none => rw [hrec] at hout; exact absurd hout (by simp)
      | some r =>
        rw [hrec] at hout
        simp only [Option.map_some', Option.some.injEq,
          Prod.mk.injEq] at hout
        rw [← hout.1] at hx
        simp only [List.mem_cons] at hx
        rcases hx with hx | hx
        · exact ⟨m, by simp, by rw [hx]⟩
        · obtain ⟨m', hm', hp⟩ := ih r.1 r.2 (by rw [hrec]) x hx
          exact ⟨m', by simp [hm'], hp⟩
    · split at hout
      · exact absurd hout (by simp)
      · rename_i om
        split at hout
        · exact absurd hout (by simp)
        · rename_i decoded hdecoded
          split at hout
          · exact absurd hout (by simp)
          · split at hout
            · cases hrec : extractMetas codec h archive (some om) k ms with
              | none => rw [hrec] at hout; exact absurd hout (by simp)
              | some r =>
                rw [hrec] at hout
                simp only [Option.map_some', Option.some.injEq,
                  Prod.mk.injEq] at hout
                rw [← hout.1] at hx
                simp only [List.mem_cons] at hx
                rcases hx with hx | hx
                · exact ⟨m, by simp, by rw [hx]⟩
                · obtain ⟨m', hm', hp⟩ := ih r.1 r.2 (by rw [hrec]) x hx
                  exact ⟨m', by simp [hm'], hp⟩
            · cases hrec : extractMetas codec h archive (some om) k ms with
              | none => rw [hrec] at hout; exact absurd hout (by simp)
              | some r =>
                rw [hrec] at hout
                simp only [Option.map_some', Option.some.injEq,
                  Prod.mk.injEq] at hout
                rw [← hout.1] at hx
                obtain ⟨m', hm', hp⟩ := ih r.1 r.2 (by rw [hrec]) x hx
                exact ⟨m', by simp [hm'], hp⟩

theorem extractGroup_ok_nonempty (codec : StreamCodec)
    (h : Bytes → Bytes) (archive : Bytes) (k c : Bytes)
    (metas : List FCMeta) (om : FCMeta)
    (hfind : metas.find? (fun m => decide (0 < m.compressedSize))
      = some om)
    (hdec : codec.decompressStream (archive.drop om.dataOffset) = some c)
    (hos : om.originalSize = c.length) (hk : h c = k) (hc : c ≠ [])
    (hall : ∀ m ∈ metas, m.originalSize = c.length) :
    extractGroup codec h archive (k, metas)
      = some (metas.map (fun m => ⟨m.relativePath, c⟩), []) := by
  rw [extractGroup]
  show (if (metas.find? (fun m => decide (0 < m.compressedSize))).isNone
      ∧ ¬ metas.any (fun m => decide (m.originalSize = 0)) then _ else _)
    = _
  rw [hfind, if_neg (by simp)]
  exact hfind ▸ extractMetas_all_ok codec h archive om k c hdec hos hk hc
    metas hall

theorem extractGroup_ok_empty (codec : StreamCodec) (h : Bytes → Bytes)
    (archive : Bytes) (k : Bytes) (metas : List FCMeta)
    (hne : metas ≠ [])
    (hall : ∀ m ∈ metas, m.originalSize = 0) :
    extractGroup codec h archive (k, metas)
      = some (metas.map (fun m => ⟨m.relativePath, []⟩), []) := by
  rw [extractGroup]
  show (if (metas.find? (fun m => decide (0 < m.compressedSize))).isNone
      ∧ ¬ metas.any (fun m => decide (m.originalSize = 0)) then _ else _)
    = _
  have hany : metas.any (fun m => decide (m.originalSize = 0)) = true := by
    cases metas with
    | nil => exact absurd rfl hne
    | cons m ms =>
      rw [List.any_cons]
      have := hall m (by simp)
      simp [this]
  rw [if_neg (by simp [hany])]
  exact extractMetas_all_empty codec h archive _ k metas hall

theorem decompressFiles_spec (codec : StreamCodec) (h : Bytes → Bytes)
    (archive : Bytes) :
    ∀ (groups : List (Bytes × List FCMeta)),
      (∀ g ∈ groups, ∃ r, extractGroup codec h archive g = some r) →
      ∃ out errs,
        decompressFiles codec h archive groups = some (out, errs) ∧
        (∀ g ∈ groups, ∀ r, extractGroup codec h archive g = some r →
          (∀ x ∈ r.1, x ∈ out) ∧ (∀ e ∈ r.2, e ∈ errs)) ∧
        (∀ x ∈ out, ∃ g ∈ groups, ∃ r,
          extractGroup codec h archive g = some r ∧ x ∈ r.1) ∧
        (∀ e ∈ errs, ∃ g ∈ groups, ∃ r,
          extractGroup codec h archive g = some r ∧ e ∈ r.2) := by
  intro groups
  induction groups with
  | nil =>
    intro _
    refine ⟨[], [], rfl, ?_, ?_, ?_⟩
    · intro g hg; exact absurd hg (by simp)
    · intro x hx; exact absurd hx (by simp)
    · intro e he; exact absurd he (by simp)
  | cons g gs ih =>
    intro hg
    obtain ⟨r0, hr0⟩ := hg g (by simp)
    obtain ⟨out1, errs1, hout1, hfwd1, hbwd1, hbe1⟩ :=
      ih (fun g' hg' => hg g' (by simp [hg']))
    refine ⟨r0.1 ++ out1, r0.2 ++ errs1, ?_, ?_, ?_, ?_⟩
    · rw [decompressFiles, hr0, hout1]
      rfl
    · intro g' hg' r hr
      rcases List.mem_cons.mp hg' with hg' | hg'
      · subst hg'
        rw [hr0] at hr
        simp only [Option.some.injEq] at hr
        rw [← hr]
        exact ⟨fun x hx => by simp [hx], fun e he => by simp [he]⟩
      · obtain ⟨hf, he⟩ := hfwd1 g' hg' r hr
        exact ⟨fun x hx => by simp [hf x hx],
          fun e hee => by simp [he e hee]⟩
    · intro x hx
      rcases List.mem_append.mp hx with hx | hx
      · exact ⟨g, by simp, r0, hr0, hx⟩
      · obtain ⟨g', hg', r, hr, hxr⟩ := hbwd1 x hx
        exact ⟨g', by simp [hg'], r, hr, hxr⟩
    · intro e he
      rcases List.mem_append.mp he with he | he
      · exact ⟨g, by simp, r0, hr0, he⟩
      · obtain ⟨g', hg', r, hr, her⟩ := hbe1 e he
        exact ⟨g', by simp [hg'], r, hr, her⟩

/-- The fields every record shares with the file it was created for. -/
def RecOk (h : Bytes → Bytes) (f : FSFile) (m : FCMeta) : Prop :=
  m.hash = h f.content ∧ m.relativePath = f.relPath ∧
    m.originalSize = f.content.length

theorem UniqueMetaOk.uniqRecOk {codec : StreamCodec} {h : Bytes → Bytes}
    {archive : Bytes} {u : FSFile} {m : FCMeta} :
    UniqueMetaOk codec h archive u m → RecOk h u m :=
  fun ⟨h1, h2, h3, _⟩ => ⟨h1, h2, h3⟩

theorem DupMetaOk.dupRecOk {h : Bytes → Bytes} {d : FSFile} {m : FCMeta} :
    DupMetaOk h d m → RecOk h d m :=
  fun ⟨h1, h2, h3, _⟩ => ⟨h1, h2, h3⟩

/-- The full metadata table pairs, in order, the unique-pass files and
the duplicate-pass files with their records. -/
theorem processFiles_metadata (codec : StreamCodec) (h : Bytes → Bytes)
    (uniqOrder dupOrder : List FSFile) (archive0 : Bytes) :
    ∃ ums dms,
      (processFiles codec h uniqOrder dupOrder archive0).metadata
          = ums ++ dms ∧
      (processFiles codec h uniqOrder dupOrder archive0).archive
          = archive0
            ++ (uniqOrder.filter (fun u => !(u.content.length = 0))).flatMap
                (fun u => codec.compressStream u.content) ∧
      List.Forall₂
        (UniqueMetaOk codec h
          (processFiles codec h uniqOrder dupOrder archive0).archive)
        uniqOrder ums ∧
      List.Forall₂ (DupMetaOk h) dupOrder dms := by
  obtain ⟨ha1, ums, hm1, hf1⟩ :=
    processUniques_spec codec h uniqOrder ⟨archive0, fun _ => none, []⟩
  obtain ⟨ha2, dms, hm2, hf2⟩ := processDuplicates_spec h dupOrder
    (uniqOrder.foldl (processUniqueFile codec h)
      ⟨archive0, fun _ => none, []⟩)
  refine ⟨ums, dms, ?_, ?_, ?_, hf2⟩
  · rw [processFiles, hm2, hm1]
    simp
  · rw [processFiles, ha2, ha1]
  · rw [processFiles, ha2]
    exact hf1

/-- Offsets recorded in the metadata never exceed the payload
archive. -/
theorem processFiles_offsets (codec : StreamCodec) (h : Bytes → Bytes)
    (uniqOrder dupOrder : List FSFile) (archive0 : Bytes) :
    ∀ m ∈ (processFiles codec h uniqOrder dupOrder archive0).metadata,
      m.dataOffset
        ≤ (processFiles codec h uniqOrder dupOrder archive0).archive.length := by
  intro m hm
  have hmapb := processUniques_map_bound codec h uniqOrder
    ⟨archive0, fun _ => none, []⟩ (by intro k v hv; exact absurd hv (by simp))
  obtain ⟨ha2, dms, hm2, _⟩ := processDuplicates_spec h dupOrder
    (uniqOrder.foldl (processUniqueFile codec h)
      ⟨archive0, fun _ => none, []⟩)
  rw [processFiles] at hm ⊢
  rw [ha2]
  rcases processDuplicates_offsets h dupOrder _ hmapb m hm with hmem | hoff
  · obtain ⟨_, ums, hm1, hf1⟩ :=
      processUniques_spec codec h uniqOrder ⟨archive0, fun _ => none, []⟩
    rw [hm1] at hmem
    simp only [List.nil_append] at hmem
    obtain ⟨u, _, hok⟩ := forall₂_mem_right hf1 m hmem
    obtain ⟨_, _, _, h4⟩ := hok
    split at h4
    · exact h4.2
    · exact h4.2.1
  · exact hoff

/-- Every scanned file is in one of the two scheduled passes, and
conversely. -/
theorem sched_mem_iff (h : Bytes → Bytes)
    (files hashOrder uniqOrder dupOrder : List FSFile)
    (huo : uniqOrder.Perm (groupFiles files (computeHashes h hashOrder).2
      (computeHashes h hashOrder).1).uniqueFiles)
    (hduo : dupOrder.Perm (groupFiles files (computeHashes h hashOrder).2
      (computeHashes h hashOrder).1).duplicateFiles)
    (f : FSFile) :
    f ∈ uniqOrder ++ dupOrder ↔ f ∈ files := by
  rw [List.mem_append, huo.mem_iff, hduo.mem_iff, groupFiles]
  constructor
  · rintro (hf | hf)
    · exact (List.mem_filter.mp hf).1
    · exact (List.mem_filter.mp hf).1
  · intro hf
    by_cases hq : isFirstOccurrence (computeHashes h hashOrder).2
        (computeHashes h hashOrder).1 f = true
    · exact Or.inl (List.mem_filter.mpr ⟨hf, hq⟩)
    · exact Or.inr (List.mem_filter.mpr ⟨hf, by simpa using hq⟩)

/-- If a list contains `t` and every entry sharing `t`'s path equals
`t`, then the path search finds `t`. -/
theorem find?_of_mem_unique :
    ∀ (l : List FSFile) (t : FSFile), t ∈ l →
      (∀ x ∈ l, x.relPath = t.relPath → x = t) →
      l.find? (fun x => decide (x.relPath = t.relPath)) = some t := by
  intro l
  induction l with
  | nil => intro t ht; exact absurd ht (by simp)
  | cons x xs ih =>
    intro t ht hall
    by_cases hx : x.relPath = t.relPath
    · have : x = t := hall x (by simp) hx
      subst this
      exact List.find?_cons_of_pos _ (by simp)
    · rw [List.find?_cons_of_neg _ (by simpa using hx)]
      rcases List.mem_cons.mp ht with h1 | h1
      · exact absurd (h1 ▸ rfl) hx
      · exact ih t h1 (fun y hy hp => hall y (by simp [hy]) hp)

/-- Each hash group of a compress run extracts in full: every record of
the group materialises the content of its digest class, and nothing is
quarantined. -/
theorem compress_groups_ok
    (codec : StreamCodec) (h : Bytes → Bytes) (ct : Nat)
    (files hashOrder uniqOrder dupOrder : List FSFile)
    (hcodec : FrameCodec codec)
    (hinj : ∀ f ∈ files, ∀ g ∈ files, h f.content = h g.content →
      f.content = g.content)
    (hnd : (files.map FSFile.relPath).Nodup)
    (hhash : hashOrder.Perm files)
    (huo : uniqOrder.Perm (groupFiles files (computeHashes h hashOrder).2
      (computeHashes h hashOrder).1).uniqueFiles)
    (hduo : dupOrder.Perm (groupFiles files (computeHashes h hashOrder).2
      (computeHashes h hashOrder).1).duplicateFiles) :
    ∀ g ∈ groupMetadata
        (processFiles codec h uniqOrder dupOrder (io.u32le ct)).metadata,
      ∃ ck,
        extractGroup codec h
            (compressWithSchedule codec h ct uniqOrder dupOrder) g
          = some (g.2.map (fun m => ⟨m.relativePath, ck⟩), []) ∧
        ∀ f ∈ files, h f.content = g.1 → f.content = ck := by
  intro g hg
  obtain ⟨ums, dms, hmeta, harch, hfu, hfd⟩ :=
    processFiles_metadata codec h uniqOrder dupOrder (io.u32le ct)
  rw [groupMetadata] at hg
  obtain ⟨k, hk, hgk⟩ := List.mem_map.mp hg
  have hkmem : k ∈ (processFiles codec h uniqOrder dupOrder
      (io.u32le ct)).metadata.map (fun m => m.hash) := List.mem_dedup.mp hk
  obtain ⟨m0, hm0, hm0k⟩ := List.mem_map.mp hkmem
  have hrec : List.Forall₂ (RecOk h) (uniqOrder ++ dupOrder)
      (processFiles codec h uniqOrder dupOrder (io.u32le ct)).metadata := by
    rw [hmeta]
    exact List.rel_append (hfu.imp fun a b => UniqueMetaOk.uniqRecOk)
      (hfd.imp fun a b => DupMetaOk.dupRecOk)
  obtain ⟨f0, hf0sched, hf0rec⟩ := forall₂_mem_right hrec m0 hm0
  have hf0 : f0 ∈ files :=
    (sched_mem_iff h files hashOrder uniqOrder dupOrder huo hduo f0).mp
      hf0sched
  have hkf0 : h f0.content = k := by rw [← hm0k, hf0rec.1]
  -- the archive bytes the decompressor sees extend the payload archive
  have htotal : compressWithSchedule codec h ct uniqOrder dupOrder
      = (processFiles codec h uniqOrder dupOrder (io.u32le ct)).archive
        ++ (io.u64le (processFiles codec h uniqOrder dupOrder
              (io.u32le ct)).metadata.length
          ++ (processFiles codec h uniqOrder dupOrder
              (io.u32le ct)).metadata.flatMap fcRecordBytes
          ++ io.u64le (processFiles codec h uniqOrder dupOrder
              (io.u32le ct)).archive.length
          ++ io.u64le (processFiles codec h uniqOrder dupOrder
              (io.u32le ct)).metadata.length) := by
    rw [compressWithSchedule, writeMetadataFC]
    simp [List.append_assoc]
  -- common facts about the bucket
  have hbucket : ∀ m ∈ (processFiles codec h uniqOrder dupOrder
      (io.u32le ct)).metadata.filter (fun m => decide (m.hash = k)),
      m.originalSize = f0.content.length := by
    intro m hm
    obtain ⟨hmm, hmk⟩ := List.mem_filter.mp hm
    obtain ⟨f', hf'sched, hf'rec⟩ := forall₂_mem_right hrec m hmm
    have hf' : f' ∈ files :=
      (sched_mem_iff h files hashOrder uniqOrder dupOrder huo hduo f').mp
        hf'sched
    have : h f'.content = k := by
      rw [← hf'rec.1]; exact of_decide_eq_true hmk
    have hcc : f'.content = f0.content :=
      hinj f' hf' f0 hf0 (by rw [this, hkf0])
    rw [hf'rec.2.2, hcc]
  have hfilters : (processFiles codec h uniqOrder dupOrder
      (io.u32le ct)).metadata.filter (fun m => decide (m.hash = k))
      = ums.filter (fun m => decide (m.hash = k))
        ++ dms.filter (fun m => decide (m.hash = k)) := by
    rw [hmeta, List.filter_append]
  have hfu' : List.Forall₂
      (UniqueMetaOk codec h (processFiles codec h uniqOrder dupOrder
        (io.u32le ct)).archive)
      (uniqOrder.filter (fun u => decide (h u.content = k)))
      (ums.filter (fun m => decide (m.hash = k))) :=
    forall₂_filter _ _ (fun a b hab => by rw [hab.1]) hfu
  have hfd' : List.Forall₂ (DupMetaOk h)
      (dupOrder.filter (fun u => decide (h u.content = k)))
      (dms.filter (fun m => decide (m.hash = k))) :=
    forall₂_filter _ _ (fun a b hab => by rw [hab.1]) hfd
  have hdmscs : ∀ m ∈ dms.filter (fun m => decide (m.hash = k)),
      m.compressedSize = 0 := by
    intro m hm
    obtain ⟨d, _, hd⟩ := forall₂_mem_right hfd' m hm
    exact hd.2.2.2
  refine ⟨f0.content, ?_, ?_⟩
  swap
  · intro f hf hfk
    rw [← hgk] at hfk
    exact hinj f hf f0 hf0 (by rw [hfk, hkf0])
  subst hgk
  by_cases hcase : f0.content = []
  · -- the empty-content class: no original record, only empty files
    have hcs0 : ∀ m ∈ (processFiles codec h uniqOrder dupOrder
        (io.u32le ct)).metadata.filter (fun m => decide (m.hash = k)),
        m.compressedSize = 0 := by
      intro m hm
      rw [hfilters] at hm
      rcases List.mem_append.mp hm with hm | hm
      · obtain ⟨u, hu, hok⟩ := forall₂_mem_right hfu' m hm
        have hu' : u ∈ files :=
          (sched_mem_iff h files hashOrder uniqOrder dupOrder huo hduo
            u).mp (by simp [List.mem_of_mem_filter hu])
        have : h u.content = k := of_decide_eq_true (List.mem_filter.mp hu).2
        have hu0 : u.content = f0.content :=
          hinj u hu' f0 hf0 (by rw [this, hkf0])
        obtain ⟨_, _, _, h4⟩ := hok
        rw [if_pos (by rw [hu0, hcase]; rfl)] at h4
        exact h4.1
      · exact hdmscs m hm
    have hfind : ((processFiles codec h uniqOrder dupOrder
        (io.u32le ct)).metadata.filter
          (fun m => decide (m.hash = k))).find?
          (fun m => decide (0 < m.compressedSize)) = none := by
      rw [List.find?_eq_none]
      intro m hm
      simp [hcs0 m hm]
    have hne : (processFiles codec h uniqOrder dupOrder
        (io.u32le ct)).metadata.filter (fun m => decide (m.hash = k))
        ≠ [] := by
      apply List.ne_nil_of_mem (a := m0)
      exact List.mem_filter.mpr ⟨hm0, by simp [hm0k]⟩
    have hall0 : ∀ m ∈ (processFiles codec h uniqOrder dupOrder
        (io.u32le ct)).metadata.filter (fun m => decide (m.hash = k)),
        m.originalSize = 0 := by
      intro m hm
      rw [hbucket m hm, hcase]
      rfl
    rw [extractGroup_ok_empty codec h _ k _ hne hall0, hcase]
  · -- the nonempty class: exactly one original record with its frame
    obtain ⟨g0, hg0find, hg0files, hg0k, hg0sing⟩ :=
      uniqueFiles_class_singleton h files hashOrder k hhash hnd f0 hf0 hkf0
    have hg0c : g0.content = f0.content :=
      hinj g0 hg0files f0 hf0 (by rw [hg0k, hkf0])
    have huf : uniqOrder.filter (fun u => decide (h u.content = k))
        = [g0] := by
      rw [← List.perm_singleton]
      rw [← hg0sing]
      exact huo.filter _
    rw [huf] at hfu'
    -- invert the singleton Forall₂
    obtain ⟨om, omtail, homs, hom, homtail⟩ :
        ∃ om omtail, ums.filter (fun m => decide (m.hash = k))
          = om :: omtail ∧ UniqueMetaOk codec h
            (processFiles codec h uniqOrder dupOrder (io.u32le ct)).archive
            g0 om ∧ omtail = [] := by
      generalize hums : ums.filter (fun m => decide (m.hash = k)) = L at hfu'
      cases hfu' with
      | cons hom htail =>
        rename_i b l2
        cases htail with
        | nil => exact ⟨b, [], rfl, hom, rfl⟩
    subst homtail
    obtain ⟨hom1, hom2, hom3, hom4⟩ := hom
    rw [if_neg (by rw [hg0c]; simpa using hcase)] at hom4
    obtain ⟨homcs, homoff, rest, homdrop⟩ :
        om.compressedSize = (codec.compressStream g0.content).length ∧
        om.dataOffset ≤ (processFiles codec h uniqOrder dupOrder
          (io.u32le ct)).archive.length ∧
        ∃ rest, (processFiles codec h uniqOrder dupOrder
            (io.u32le ct)).archive.drop om.dataOffset
          = codec.compressStream g0.content ++ rest :=
      ⟨hom4.1, hom4.2.1, hom4.2.2⟩
    have homcspos : 0 < om.compressedSize := by
      rw [homcs]
      have : codec.compressStream g0.content ≠ [] :=
        hcodec.2 g0.content (by rw [hg0c]; exact hcase)
      exact List.length_pos.mpr this
    have hfind : ((processFiles codec h uniqOrder dupOrder
        (io.u32le ct)).metadata.filter
          (fun m => decide (m.hash = k))).find?
          (fun m => decide (0 < m.compressedSize)) = some om := by
      rw [hfilters, homs]
      show (om :: ([] ++ dms.filter (fun m => decide (m.hash = k)))).find? _
        = some om
      exact List.find?_cons_of_pos _ (by simp [homcspos])
    have hdec : codec.decompressStream
        ((compressWithSchedule codec h ct uniqOrder dupOrder).drop
          om.dataOffset) = some f0.content := by
      have hFA : FrameAt codec
          (compressWithSchedule codec h ct uniqOrder dupOrder)
          om.dataOffset g0.content := by
        rw [htotal]
        exact FrameAt.frameAppend _ ⟨homoff, rest, homdrop⟩
      obtain ⟨_, rest2, hdrop2⟩ := hFA
      rw [hdrop2, hcodec.1, ← hg0c]
    have hos : om.originalSize = f0.content.length := by
      rw [hom3, hg0c]
    exact extractGroup_ok_nonempty codec h _ k f0.content _ om hfind hdec
      hos hkf0 hcase hbucket

/-- Central round-trip lemma: decompressing a compressed archive
succeeds, and the path search for any scanned file returns its original
contents. -/
theorem compress_decompress_spec
    (codec : StreamCodec) (codecOf : Nat → Option StreamCodec)
    (h : Bytes → Bytes) (ct : Nat)
    (files hashOrder uniqOrder dupOrder : List FSFile)
    (hcodec : FrameCodec codec)
    (hcodecOf : codecOf ct = some codec)
    (hct : ct < 2 ^ 32)
    (hinj : ∀ f ∈ files, ∀ g ∈ files, h f.content = h g.content →
      f.content = g.content)
    (hnd : (files.map FSFile.relPath).Nodup)
    (hhash : hashOrder.Perm files)
    (huo : uniqOrder.Perm (groupFiles files (computeHashes h hashOrder).2
      (computeHashes h hashOrder).1).uniqueFiles)
    (hduo : dupOrder.Perm (groupFiles files (computeHashes h hashOrder).2
      (computeHashes h hashOrder).1).duplicateFiles)
    (harch : (compressWithSchedule codec h ct uniqOrder dupOrder).length
      < 2 ^ 64)
    (hsz : ∀ f ∈ files, f.content.length < 2 ^ 64 ∧
      (h f.content).length < 2 ^ 64 ∧ f.relPath.length < 2 ^ 64)
    (hcount : files.length < 2 ^ 64) :
    ∃ out errs,
      decompress codecOf h
          (compressWithSchedule codec h ct uniqOrder dupOrder)
        = some (out, errs) ∧
      ∀ f ∈ files,
        out.find? (fun x => decide (x.relPath = f.relPath))
          = some ⟨f.relPath, f.content⟩ := by
  obtain ⟨ums, dms, hmeta, harch0, hfu, hfd⟩ :=
    processFiles_metadata codec h uniqOrder dupOrder (io.u32le ct)
  have hcw : compressWithSchedule codec h ct uniqOrder dupOrder
      = writeMetadataFC
          (processFiles codec h uniqOrder dupOrder (io.u32le ct)).archive
          (processFiles codec h uniqOrder dupOrder (io.u32le ct)).metadata :=
    rfl
  have hrec : List.Forall₂ (RecOk h) (uniqOrder ++ dupOrder)
      (processFiles codec h uniqOrder dupOrder (io.u32le ct)).metadata := by
    rw [hmeta]
    exact List.rel_append (hfu.imp fun a b => UniqueMetaOk.uniqRecOk)
      (hfd.imp fun a b => DupMetaOk.dupRecOk)
  have hArchLe : (processFiles codec h uniqOrder dupOrder
        (io.u32le ct)).archive.length
      ≤ (compressWithSchedule codec h ct uniqOrder dupOrder).length := by
    rw [hcw, writeMetadataFC]
    simp only [List.length_append]
    omega
  have hcountm : (processFiles codec h uniqOrder dupOrder
      (io.u32le ct)).metadata.length = files.length := by
    rw [hmeta, List.length_append, ← hfu.length_eq, ← hfd.length_eq,
      huo.length_eq, hduo.length_eq, groupFiles]
    rw [← List.countP_eq_length_filter, ← List.countP_eq_length_filter]
    exact (List.length_eq_countP_add_countP _ files).symm
  have hvalid : ∀ m ∈ (processFiles codec h uniqOrder dupOrder
      (io.u32le ct)).metadata, ValidFCMeta m := by
    intro m hm
    have hoff : m.dataOffset ≤ (processFiles codec h uniqOrder dupOrder
        (io.u32le ct)).archive.length :=
      processFiles_offsets codec h uniqOrder dupOrder (io.u32le ct) m hm
    obtain ⟨f', hf'sched, hf'rec⟩ := forall₂_mem_right hrec m hm
    have hf' : f' ∈ files :=
      (sched_mem_iff h files hashOrder uniqOrder dupOrder huo hduo f').mp
        hf'sched
    obtain ⟨hs1, hs2, hs3⟩ := hsz f' hf'
    have hcs : m.compressedSize
        ≤ (processFiles codec h uniqOrder dupOrder
            (io.u32le ct)).archive.length := by
      rw [hmeta] at hm
      rcases List.mem_append.mp hm with hm | hm
      · obtain ⟨u, _, hok⟩ := forall₂_mem_right hfu m hm
        obtain ⟨_, _, _, h4⟩ := hok
        split at h4
        · rw [h4.1]; omega
        · obtain ⟨hcseq, hle, rest, hdrop⟩ := h4
          have hlen := congrArg List.length hdrop
          rw [List.length_drop, List.length_append] at hlen
          omega
      · obtain ⟨d, _, hok⟩ := forall₂_mem_right hfd m hm
        rw [hok.2.2.2]
        omega
    refine ⟨by omega, ?_, ?_, by omega, ?_⟩
    · rw [hf'rec.1]; exact hs2
    · rw [hf'rec.2.1]; exact hs3
    · rw [hf'rec.2.2]; exact hs1
  have hread : readMetadataFC
      (compressWithSchedule codec h ct uniqOrder dupOrder)
      = some (processFiles codec h uniqOrder dupOrder
          (io.u32le ct)).metadata := by
    rw [hcw]
    exact readMetadataFC_writeMetadataFC _ _ hvalid (by omega)
      (by rw [hcountm]; exact hcount)
  have h32 : io.takeU32
      (compressWithSchedule codec h ct uniqOrder dupOrder)
      = some (ct, ((uniqOrder.filter
            (fun u => !(u.content.length = 0))).flatMap
            (fun u => codec.compressStream u.content))
          ++ (io.u64le (processFiles codec h uniqOrder dupOrder
                (io.u32le ct)).metadata.length
            ++ ((processFiles codec h uniqOrder dupOrder
                (io.u32le ct)).metadata.flatMap fcRecordBytes
            ++ (io.u64le (processFiles codec h uniqOrder dupOrder
                (io.u32le ct)).archive.length
            ++ io.u64le (processFiles codec h uniqOrder dupOrder
                (io.u32le ct)).metadata.length)))) := by
    have he : compressWithSchedule codec h ct uniqOrder dupOrder
        = io.u32le ct
          ++ (((uniqOrder.filter
              (fun u => !(u.content.length = 0))).flatMap
              (fun u => codec.compressStream u.content))
            ++ (io.u64le (processFiles codec h uniqOrder dupOrder
                  (io.u32le ct)).metadata.length
              ++ ((processFiles codec h uniqOrder dupOrder
                  (io.u32le ct)).metadata.flatMap fcRecordBytes
              ++ (io.u64le (processFiles codec h uniqOrder dupOrder
                  (io.u32le ct)).archive.length
              ++ io.u64le (processFiles codec h uniqOrder dupOrder
                  (io.u32le ct)).metadata.length)))) := by
      rw [hcw, writeMetadataFC, harch0]
      simp [List.append_assoc]
    rw [he]
    exact io.takeU32_u32le _ _ hct
  have hgroups := compress_groups_ok codec h ct files hashOrder uniqOrder
    dupOrder hcodec hinj hnd hhash huo hduo
  have hsome : ∀ g ∈ groupMetadata (processFiles codec h uniqOrder
      dupOrder (io.u32le ct)).metadata,
      ∃ r, extractGroup codec h
        (compressWithSchedule codec h ct uniqOrder dupOrder) g = some r := by
    intro g hg
    obtain ⟨ck, h1, _⟩ := hgroups g hg
    exact ⟨_, h1⟩
  obtain ⟨out, errs, hdf, hfwd, hbwd, _⟩ :=
    decompressFiles_spec codec h
      (compressWithSchedule codec h ct uniqOrder dupOrder)
      (groupMetadata (processFiles codec h uniqOrder dupOrder
        (io.u32le ct)).metadata)
      hsome
  refine ⟨out, errs, ?_, ?_⟩
  · rw [decompress]
    simp only [h32, hread, hcodecOf, hdf]
  · intro f hf
    -- the record created for f
    have hfsched : f ∈ uniqOrder ++ dupOrder :=
      (sched_mem_iff h files hashOrder uniqOrder dupOrder huo hduo f).mpr hf
    obtain ⟨mf, hmf, hmfrec⟩ := forall₂_mem_left hrec f hfsched
    have hkdedup : mf.hash ∈ ((processFiles codec h uniqOrder dupOrder
        (io.u32le ct)).metadata.map (fun m => m.hash)).dedup :=
      List.mem_dedup.mpr (List.mem_map.mpr ⟨mf, hmf, rfl⟩)
    have hgmem : (mf.hash, (processFiles codec h uniqOrder dupOrder
          (io.u32le ct)).metadata.filter
          (fun m => decide (m.hash = mf.hash)))
        ∈ groupMetadata (processFiles codec h uniqOrder dupOrder
          (io.u32le ct)).metadata := by
      rw [groupMetadata]
      exact List.mem_map.mpr ⟨mf.hash, hkdedup, rfl⟩
    obtain ⟨ck, hex, hclass⟩ := hgroups _ hgmem
    have hckf : ck = f.content :=
      (hclass f hf (by rw [hmfrec.1])).symm
    have hmem : (⟨f.relPath, f.content⟩ : FSFile) ∈ out := by
      have hx : (⟨mf.relativePath, ck⟩ : FSFile)
          ∈ ((processFiles codec h uniqOrder dupOrder
              (io.u32le ct)).metadata.filter
              (fun m => decide (m.hash = mf.hash))).map
            (fun m => (⟨m.relativePath, ck⟩ : FSFile)) :=
        List.mem_map.mpr ⟨mf, List.mem_filter.mpr ⟨hmf, by simp⟩, rfl⟩
      have := (hfwd _ hgmem _ hex).1 _ hx
      rw [hmfrec.2.1, hckf] at this
      exact this
    have huniq : ∀ x ∈ out, x.relPath = f.relPath →
        x = ⟨f.relPath, f.content⟩ := by
      intro x hx hxp
      obtain ⟨g', hg', r', hr', hxr⟩ := hbwd x hx
      obtain ⟨ck', hex', hclass'⟩ := hgroups g' hg'
      rw [hex'] at hr'
      simp only [Option.some.injEq] at hr'
      rw [← hr'] at hxr
      obtain ⟨m', hm'g, hxm⟩ := List.mem_map.mp hxr
      -- the group's records are a filter of the metadata table
      rw [groupMetadata] at hg'
      obtain ⟨k', _, hk'g⟩ := List.mem_map.mp hg'
      have hm'meta : m' ∈ (processFiles codec h uniqOrder dupOrder
          (io.u32le ct)).metadata ∧ m'.hash = g'.1 := by
        rw [← hk'g] at hm'g ⊢
        obtain ⟨ha, hb⟩ := List.mem_filter.mp hm'g
        exact ⟨ha, of_decide_eq_true hb⟩
      obtain ⟨f', hf'sched, hf'rec⟩ :=
        forall₂_mem_right hrec m' hm'meta.1
      have hf'files : f' ∈ files :=
        (sched_mem_iff h files hashOrder uniqOrder dupOrder huo hduo
          f').mp hf'sched
      have hxrel : x.relPath = m'.relativePath := by rw [← hxm]
      have hpath : f'.relPath = f.relPath := by
        rw [← hf'rec.2.1, ← hxrel]
        exact hxp
      have hff : f' = f :=
        List.inj_on_of_nodup_map hnd hf'files hf hpath
      have hck' : ck' = f.content := by
        refine (hclass' f hf ?_).symm
        rw [← hm'meta.2, hf'rec.1, hff]
      rw [← hxm, hck']
      have : m'.relativePath = f.relPath := by
        rw [hf'rec.2.1]
        exact hpath
      rw [this]
    have := find?_of_mem_unique out ⟨f.relPath, f.content⟩ hmem
      (fun x hx hxp => huniq x hx hxp)
    exact this

/-- The codec frames written into the payload region, in pass order:
one per nonempty unique file. -/
def compressFrames (codec : StreamCodec) (uniqOrder : List FSFile) :
    List Bytes :=
  (uniqOrder.filter (fun u => !(u.content.length = 0))).map
    (fun u => codec.compressStream u.content)

/-- The byte-level shape of a compressed archive: the 4-byte codec-id
header, the payload frames back to back, then the metadata section
(count + records) and the 16-byte footer (`metaOffset`, count). -/
theorem compress_layout (codec : StreamCodec) (h : Bytes → Bytes)
    (ct : Nat) (uniqOrder dupOrder : List FSFile) :
    compressWithSchedule codec h ct uniqOrder dupOrder
      = io.u32le ct ++ (compressFrames codec uniqOrder).flatten
        ++ io.u64le (processFiles codec h uniqOrder dupOrder
            (io.u32le ct)).metadata.length
        ++ (processFiles codec h uniqOrder dupOrder
            (io.u32le ct)).metadata.flatMap fcRecordBytes
        ++ io.u64le (4 + (compressFrames codec uniqOrder).flatten.length)
        ++ io.u64le (processFiles codec h uniqOrder dupOrder
            (io.u32le ct)).metadata.length := by
  obtain ⟨ums, dms, hmeta, harch0, hfu, hfd⟩ :=
    processFiles_metadata codec h uniqOrder dupOrder (io.u32le ct)
  have hflat : (compressFrames codec uniqOrder).flatten
      = (uniqOrder.filter (fun u => !(u.content.length = 0))).flatMap
          (fun u => codec.compressStream u.content) := by
    rw [compressFrames, List.flatMap_def]
  have hlen4 : (io.u32le ct).length = 4 := by
    simp [io.u32le, io.leBytes_length]
  have hplen : (processFiles codec h uniqOrder dupOrder
      (io.u32le ct)).archive.length
      = 4 + (compressFrames codec uniqOrder).flatten.length := by
    rw [harch0, List.length_append, hlen4, hflat]
  show writeMetadataFC _ _ = _
  rw [writeMetadataFC, hplen, harch0, hflat]

/-- Exactly one frame in the payload region encodes a given nonempty
content that occurs among the scanned files. -/
theorem compressFrames_count (codec : StreamCodec) (h : Bytes → Bytes)
    (files hashOrder uniqOrder : List FSFile) (c : Bytes)
    (hcodec : FrameCodec codec)
    (hinj : ∀ f ∈ files, ∀ g ∈ files, h f.content = h g.content →
      f.content = g.content)
    (hnd : (files.map FSFile.relPath).Nodup)
    (hhash : hashOrder.Perm files)
    (huo : uniqOrder.Perm (groupFiles files (computeHashes h hashOrder).2
      (computeHashes h hashOrder).1).uniqueFiles)
    (hc : c ≠ []) (f : FSFile) (hf : f ∈ files) (hfc : f.content = c) :
    (compressFrames codec uniqOrder).countP
      (fun fr => decide (fr = codec.compressStream c)) = 1 := by
  have hencinj : ∀ x, codec.compressStream x = codec.compressStream c →
      x = c := by
    intro x hx
    have h1 := hcodec.1 x []
    have h2 := hcodec.1 c []
    rw [hx] at h1
    rw [h1] at h2
    exact (Option.some.injEq _ _ ▸ h2)
  rw [compressFrames, List.countP_map]
  simp only [Function.comp_def]
  have hcong : (uniqOrder.filter
      (fun u => !(u.content.length = 0))).countP
      (fun u => decide (codec.compressStream u.content
        = codec.compressStream c))
      = (uniqOrder.filter (fun u => !(u.content.length = 0))).countP
          (fun u => decide (u.content = c)) := by
    apply List.countP_congr
    intro u _
    constructor
    · intro hu
      simpa using hencinj u.content (by simpa using hu)
    · intro hu
      have : u.content = c := by simpa using hu
      simp [this]
  rw [hcong, List.countP_filter]
  have hcong2 : uniqOrder.countP
      (fun a => decide (a.content = c) && !(a.content.length = 0))
      = uniqOrder.countP (fun a => decide (h a.content = h c)) := by
    apply List.countP_congr
    intro u hu
    have humem : u ∈ files := by
      have : u ∈ (groupFiles files (computeHashes h hashOrder).2
          (computeHashes h hashOrder).1).uniqueFiles := huo.mem_iff.mp hu
      rw [groupFiles] at this
      exact List.mem_of_mem_filter this
    constructor
    · intro hand
      simp only [Bool.and_eq_true, decide_eq_true_eq] at hand
      simp [hand.1]
    · intro hhh
      have : u.content = c := by
        have := hinj u humem f hf (by rw [hfc]; simpa using hhh)
        rw [this, hfc]
      simp only [Bool.and_eq_true, decide_eq_true_eq]
      refine ⟨this, ?_⟩
      simp [this]
      intro habs
      exact hc (by rw [← habs])
  rw [hcong2]
  have hcount : uniqOrder.countP (fun a => decide (h a.content = h c))
      = (groupFiles files (computeHashes h hashOrder).2
          (computeHashes h hashOrder).1).uniqueFiles.countP
          (fun a => decide (h a.content = h c)) :=
    huo.countP_eq _
  rw [hcount]
  obtain ⟨g0, _, _, _, hsing⟩ := uniqueFiles_class_singleton h files
    hashOrder (h c) hhash hnd f hf (by rw [hfc])
  rw [List.countP_eq_length_filter, hsing]
  rfl

/-- When the decoded original hashes differently from the group key,
the record loop quarantines every nonempty record (its path is logged
and its output removed) and still materialises the empty ones. -/
theorem extractMetas_mismatch (codec : StreamCodec) (h : Bytes → Bytes)
    (archive : Bytes) (om : FCMeta) (k decoded : Bytes)
    (hdec : codec.decompressStream (archive.drop om.dataOffset)
      = some decoded)
    (hsz : ¬(0 < om.originalSize ∧ decoded.length ≠ om.originalSize))
    (hmm : ¬ h decoded = k) :
    ∀ (metas : List FCMeta),
      extractMetas codec h archive (some om) k metas
        = some ((metas.filter (fun m => decide (m.originalSize = 0))).map
              (fun m => ⟨m.relativePath, []⟩),
            (metas.filter (fun m => !(m.originalSize = 0))).map
              (fun m => m.relativePath)) := by
  intro metas
  induction metas with
  | nil => rfl
  | cons m ms ih =>
    by_cases hm : m.originalSize = 0
    · have hfpos : (m :: ms).filter (fun m => decide (m.originalSize = 0))
          = m :: ms.filter (fun m => decide (m.originalSize = 0)) :=
        List.filter_cons_of_pos (by simp [hm])
      have hfneg : (m :: ms).filter (fun m => !(m.originalSize = 0))
          = ms.filter (fun m => !(m.originalSize = 0)) :=
        List.filter_cons_of_neg (by simp [hm])
      simp only [extractMetas, hm, if_true, ih, Option.map_some',
        hfpos, hfneg, List.map_cons]
    · have hfpos : (m :: ms).filter (fun m => decide (m.originalSize = 0))
          = ms.filter (fun m => decide (m.originalSize = 0)) :=
        List.filter_cons_of_neg (by simp [hm])
      have hfneg : (m :: ms).filter (fun m => !(m.originalSize = 0))
          = m :: ms.filter (fun m => !(m.originalSize = 0)) :=
        List.filter_cons_of_pos (by simp [hm])
      simp only [extractMetas, hm, if_false, hdec, hsz, hmm, ih,
        Option.map_some', hfpos, hfneg, List.map_cons]

/-- Frame decoder of the concrete witness codec: each 0-tagged byte is
part of the frame, 1 terminates it. -/
def tagDecode : Bytes → Option Bytes
  | 1 :: _ => some []
  | 0 :: b :: rest => (tagDecode rest).map (b :: ·)
  | _ => none

/-- A concrete streaming codec used to witness the theorems: each input
byte is emitted tagged with 0, and 1 terminates the frame. -/
def tagCodec : StreamCodec where
  compressStream := fun x => x.flatMap (fun b => [0, b]) ++ [1]
  decompressStream := tagDecode

theorem tagCodec_frame : FrameCodec tagCodec := by
  constructor
  · intro x
    induction x with
    | nil => intro rest; rfl
    | cons b xs ih =>
      intro rest
      show tagDecode (((b :: xs).flatMap (fun b => [0, b]) ++ [1]) ++ rest)
        = some (b :: xs)
      have hsh : ((b :: xs).flatMap (fun b => [0, b]) ++ [1]) ++ rest
          = 0 :: b :: ((xs.flatMap (fun b => [0, b]) ++ [1]) ++ rest) := by
        simp
      rw [hsh]
      have hih : tagDecode ((xs.flatMap (fun b => [0, b]) ++ [1]) ++ rest)
          = some xs := ih rest
      show (tagDecode ((xs.flatMap (fun b => [0, b]) ++ [1]) ++ rest)).map
          (b :: ·)
        = some (b :: xs)
      rw [hih]
      rfl
  · intro x hx
    simp [tagCodec]

theorem extractGroup_out_paths (codec : StreamCodec) (h : Bytes → Bytes)
    (archive : Bytes) (g : Bytes × List FCMeta)
    (r : List FSFile × List Bytes)
    (hr : extractGroup codec h archive g = some r) :
    ∀ x ∈ r.1, ∃ m ∈ g.2, x.relPath = m.relativePath := by
  rw [extractGroup] at hr
  split at hr
  · simp only [Option.some.injEq] at hr
    intro x hx
    rw [← hr] at hx
    exact absurd hx (by simp)
  · exact extractMetas_out_paths codec h archive _ g.1 g.2 r.1 r.2
      (by rw [hr])

/-- A collision-free stand-in for the SHA-256 digest, used to
instantiate the pipeline theorems on concrete inputs. -/
def idHash : Bytes → Bytes := fun c => c

/-- A codec-id table providing `tagCodec` under id 2, the behaviour of
`createCompressor` for a build with one codec. -/
def tagCodecOf : Nat → Option StreamCodec :=
  fun n => if n = 2 then some tagCodec else none

end compression

namespace io

theorem readMetadataCore_spec :
    ∀ (bs : Bytes) (r : MetaParse), readMetadataCore bs = some r →
      r.originals.length = r.originalCount ∧
      r.duplicates.length = r.duplicateCount ∧
      ∀ m ∈ r.duplicates, m.dataOffset = -1 := by
  intro bs r hr
  rw [readMetadataCore] at hr
  split at hr
  · exact absurd hr (by simp)
  · split at hr
    · exact absurd hr (by simp)
    · split at hr
      · exact absurd hr (by simp)
      · split at hr
        · exact absurd hr (by simp)
        · split at hr
          · exact absurd hr (by simp)
          · simp only [Option.some.injEq] at hr
            subst hr
            refine ⟨?_, ?_, ?_⟩
            · exact readOriginalRecords_length _ _ _ _ (by assumption)
            · exact (readDuplicateRecords_spec _ _ _ _ (by assumption)).1
            · exact (readDuplicateRecords_spec _ _ _ _ (by assumption)).2

end io

namespace compression

/-- C1.  Round-trip identity: for every scanned tree and every nonempty
regular file `f` in it, `compress` with any codec satisfying the
streaming-codec contract, under any scheduling of the three parallel
passes, followed by `decompress`, produces an output file at `f`'s
relative path whose byte contents equal `f`'s original contents.
Hypotheses: the codec round-trips frames, the digest is collision-free
on the tree's contents, relative paths are distinct, and all sizes fit
in `uint64`. -/
theorem roundTripIdentity
    (codec : StreamCodec) (codecOf : Nat → Option StreamCodec)
    (h : Bytes → Bytes) (ct : Nat)
    (files hashOrder uniqOrder dupOrder : List FSFile)
    (hcodec : FrameCodec codec)
    (hcodecOf : codecOf ct = some codec)
    (hct : ct < 2 ^ 32)
    (hinj : ∀ f ∈ files, ∀ g ∈ files, h f.content = h g.content →
      f.content = g.content)
    (hnd : (files.map FSFile.relPath).Nodup)
    (hhash : hashOrder.Perm files)
    (huo : uniqOrder.Perm (groupFiles files (computeHashes h hashOrder).2
      (computeHashes h hashOrder).1).uniqueFiles)
    (hduo : dupOrder.Perm (groupFiles files (computeHashes h hashOrder).2
      (computeHashes h hashOrder).1).duplicateFiles)
    (harch : (compressWithSchedule codec h ct uniqOrder dupOrder).length
      < 2 ^ 64)
    (hsz : ∀ f ∈ files, f.content.length < 2 ^ 64 ∧
      (h f.content).length < 2 ^ 64 ∧ f.relPath.length < 2 ^ 64)
    (hcount : files.length < 2 ^ 64)
    (f : FSFile) (hf : f ∈ files) (_hne : f.content ≠ []) :
    ∃ out errs,
      decompress codecOf h
          (compressWithSchedule codec h ct uniqOrder dupOrder)
        = some (out, errs) ∧
      out.find? (fun x => decide (x.relPath = f.relPath))
        = some ⟨f.relPath, f.content⟩ := by
  obtain ⟨out, errs, h1, h2⟩ := compress_decompress_spec codec codecOf h
    ct files hashOrder uniqOrder dupOrder hcodec hcodecOf hct hinj hnd
    hhash huo hduo harch hsz hcount
  exact ⟨out, errs, h1, h2 f hf⟩

/-- Concrete files used to witness the pipeline theorems: two files
share contents, one differs. -/
def wFiles : List FSFile := [⟨[97], [1]⟩, ⟨[98], [1]⟩, ⟨[99], [2]⟩]

/-- The unique group of `wFiles` in program order. -/
def wUniq : List FSFile := [⟨[97], [1]⟩, ⟨[99], [2]⟩]

/-- The duplicate group of `wFiles` in program order. -/
def wDup : List FSFile := [⟨[98], [1]⟩]

set_option maxRecDepth 20000 in
/-- Concrete witness for the round-trip identity theorem. -/
theorem roundTripIdentity_witness :
    (⟨[97], [1]⟩ : FSFile) ∈ wFiles ∧ ([1] : Bytes) ≠ [] ∧
    ∃ out errs,
      decompress tagCodecOf idHash
          (compressWithSchedule tagCodec idHash 2 wUniq wDup)
        = some (out, errs) ∧
      out.find? (fun x => decide (x.relPath = (⟨[97], [1]⟩ : FSFile).relPath))
        = some ⟨[97], [1]⟩ :=
  ⟨by decide, by decide,
    roundTripIdentity tagCodec tagCodecOf idHash 2 wFiles wFiles wUniq wDup
      tagCodec_frame rfl (by norm_num) (by decide) (by decide)
      (List.Perm.refl _) (by decide) (by decide) (by decide) (by decide)
      (by decide) ⟨[97], [1]⟩ (by decide) (by decide)⟩

/-- C2 (counterexample).  The claim quantifies over any `k ≥ 2` files
with byte-identical contents; for two empty files the payload region
contains no codec frame for that content at all, not exactly one. -/
theorem deduplication_counterexample :
    ([⟨[97], []⟩, ⟨[98], []⟩] : List FSFile).countP
        (fun f => decide (f.content = ([] : Bytes))) = 2 ∧
    (compressFrames tagCodec
        (groupFiles [⟨[97], []⟩, ⟨[98], []⟩]
          (computeHashes idHash [⟨[97], []⟩, ⟨[98], []⟩]).2
          (computeHashes idHash [⟨[97], []⟩, ⟨[98], []⟩]).1).uniqueFiles).countP
        (fun fr => decide (fr = tagCodec.compressStream ([] : Bytes)))
      = 0 := by
  constructor
  · decide
  · decide

/-- C2 (amended).  Deduplication for nonempty contents: if at least two
scanned files have the same nonempty contents `c`, the payload region
contains exactly one codec frame for `c`, and after decompression every
file with contents `c` reappears at its relative path with those
contents.  (Empty-file groups contribute no frame; each empty file
still gets a metadata record and reappears as an empty file.) -/
theorem deduplication
    (codec : StreamCodec) (codecOf : Nat → Option StreamCodec)
    (h : Bytes → Bytes) (ct : Nat)
    (files hashOrder uniqOrder dupOrder : List FSFile)
    (hcodec : FrameCodec codec)
    (hcodecOf : codecOf ct = some codec)
    (hct : ct < 2 ^ 32)
    (hinj : ∀ f ∈ files, ∀ g ∈ files, h f.content = h g.content →
      f.content = g.content)
    (hnd : (files.map FSFile.relPath).Nodup)
    (hhash : hashOrder.Perm files)
    (huo : uniqOrder.Perm (groupFiles files (computeHashes h hashOrder).2
      (computeHashes h hashOrder).1).uniqueFiles)
    (hduo : dupOrder.Perm (groupFiles files (computeHashes h hashOrder).2
      (computeHashes h hashOrder).1).duplicateFiles)
    (harch : (compressWithSchedule codec h ct uniqOrder dupOrder).length
      < 2 ^ 64)
    (hsz : ∀ f ∈ files, f.content.length < 2 ^ 64 ∧
      (h f.content).length < 2 ^ 64 ∧ f.relPath.length < 2 ^ 64)
    (hcount : files.length < 2 ^ 64)
    (c : Bytes) (hc : c ≠ [])
    (hcc : 2 ≤ files.countP (fun f => decide (f.content = c))) :
    (compressFrames codec uniqOrder).countP
        (fun fr => decide (fr = codec.compressStream c)) = 1 ∧
    ∃ out errs,
      decompress codecOf h
          (compressWithSchedule codec h ct uniqOrder dupOrder)
        = some (out, errs) ∧
      ∀ f ∈ files, f.content = c →
        out.find? (fun x => decide (x.relPath = f.relPath))
          = some ⟨f.relPath, c⟩ := by
  have hex : ∃ f ∈ files, f.content = c := by
    have hpos : 0 < files.countP (fun f => decide (f.content = c)) := by
      omega
    obtain ⟨f, hf, hfc⟩ := List.countP_pos_iff.mp hpos
    exact ⟨f, hf, of_decide_eq_true hfc⟩
  obtain ⟨f0, hf0, hf0c⟩ := hex
  constructor
  · exact compressFrames_count codec h files hashOrder uniqOrder c hcodec
      hinj hnd hhash huo hc f0 hf0 hf0c
  · obtain ⟨out, errs, hd, hfind⟩ := compress_decompress_spec codec
      codecOf h ct files hashOrder uniqOrder dupOrder hcodec hcodecOf hct
      hinj hnd hhash huo hduo harch hsz hcount
    refine ⟨out, errs, hd, ?_⟩
    intro f hf hfc
    have hx := hfind f hf
    rw [hfc] at hx
    exact hx

set_option maxRecDepth 20000 in
/-- Concrete witness for the deduplication theorem: two of the three
files share the contents `[1]`. -/
theorem deduplication_witness :
    ([1] : Bytes) ≠ [] ∧
    2 ≤ wFiles.countP (fun f => decide (f.content = ([1] : Bytes))) ∧
    ((compressFrames tagCodec wUniq).countP
        (fun fr => decide (fr = tagCodec.compressStream ([1] : Bytes)))
      = 1 ∧
    ∃ out errs,
      decompress tagCodecOf idHash
          (compressWithSchedule tagCodec idHash 2 wUniq wDup)
        = some (out, errs) ∧
      ∀ f ∈ wFiles, f.content = [1] →
        out.find? (fun x => decide (x.relPath = f.relPath))
          = some ⟨f.relPath, [1]⟩) :=
  ⟨by decide, by decide,
    deduplication tagCodec tagCodecOf idHash 2 wFiles wFiles wUniq wDup
      tagCodec_frame rfl (by norm_num) (by decide) (by decide)
      (List.Perm.refl _) (by decide) (by decide) (by decide) (by decide)
      (by decide) [1] (by decide) (by decide)⟩

/-- C7.  Hash-mismatch quarantine: if the group original's decoded
bytes pass the size check but hash differently from the group key,
every record of that group with nonzero size is quarantined — its path
is reported as an error and no output file carries its path — while the
whole `decompressFiles` call still succeeds and processes the remaining
groups. -/
theorem hashMismatchQuarantine
    (codec : StreamCodec) (h : Bytes → Bytes) (archive : Bytes)
    (k decoded : Bytes) (metas : List FCMeta) (om m : FCMeta)
    (gPre gPost : List (Bytes × List FCMeta))
    (hfind : metas.find? (fun m => decide (0 < m.compressedSize))
      = some om)
    (hdec : codec.decompressStream (archive.drop om.dataOffset)
      = some decoded)
    (hsz : decoded.length = om.originalSize)
    (hmm : ¬ h decoded = k)
    (hpre : ∀ g ∈ gPre, ∃ r, extractGroup codec h archive g = some r)
    (hpost : ∀ g ∈ gPost, ∃ r, extractGroup codec h archive g = some r)
    (hm : m ∈ metas) (hos : ¬ m.originalSize = 0)
    (huniq : ∀ g' ∈ gPre ++ (k, metas) :: gPost, ∀ m' ∈ g'.2,
      m'.relativePath = m.relativePath → m' = m)
    (hnotin : ∀ g' ∈ gPre ++ gPost, m ∉ g'.2) :
    ∃ out errs,
      decompressFiles codec h archive (gPre ++ (k, metas) :: gPost)
        = some (out, errs) ∧
      m.relativePath ∈ errs ∧
      ∀ x ∈ out, x.relPath ≠ m.relativePath := by
  have hsz' : ¬(0 < om.originalSize ∧ decoded.length ≠ om.originalSize) := by
    rintro ⟨_, hne⟩
    exact hne hsz
  have hgx : extractGroup codec h archive (k, metas)
      = some ((metas.filter (fun m => decide (m.originalSize = 0))).map
            (fun m => ⟨m.relativePath, []⟩),
          (metas.filter (fun m => !(m.originalSize = 0))).map
            (fun m => m.relativePath)) := by
    rw [extractGroup]
    show (if (metas.find?
        (fun m => decide (0 < m.compressedSize))).isNone
        ∧ ¬ metas.any (fun m => decide (m.originalSize = 0)) then _
      else _) = _
    rw [hfind, if_neg (by simp)]
    exact hfind ▸
      extractMetas_mismatch codec h archive om k decoded hdec hsz' hmm metas
  have hall : ∀ g ∈ gPre ++ (k, metas) :: gPost,
      ∃ r, extractGroup codec h archive g = some r := by
    intro g hg
    rcases List.mem_append.mp hg with hg | hg
    · exact hpre g hg
    · rcases List.mem_cons.mp hg with hg | hg
      · subst hg; exact ⟨_, hgx⟩
      · exact hpost g hg
  obtain ⟨out, errs, hdf, hfwd, hbwd, _⟩ :=
    decompressFiles_spec codec h archive _ hall
  refine ⟨out, errs, hdf, ?_, ?_⟩
  · apply (hfwd (k, metas) (by simp) _ hgx).2
    exact List.mem_map.mpr ⟨m, List.mem_filter.mpr ⟨hm, by simp [hos]⟩, rfl⟩
  · intro x hx
    obtain ⟨g', hg', r', hr', hxr⟩ := hbwd x hx
    obtain ⟨m', hm'g, hm'p⟩ :=
      extractGroup_out_paths codec h archive g' r' hr' x hxr
    intro hxeq
    have hmm' : m'.relativePath = m.relativePath := by rw [← hm'p, hxeq]
    have hmeq : m' = m := huniq g' hg' m' hm'g hmm'
    subst hmeq
    rcases List.mem_append.mp hg' with hgg | hgg
    · exact hnotin g' (List.mem_append.mpr (Or.inl hgg)) hm'g
    · rcases List.mem_cons.mp hgg with hgg | hgg
      · subst hgg
        rw [hgx] at hr'
        simp only [Option.some.injEq] at hr'
        rw [← hr'] at hxr
        obtain ⟨m2, hm2, hm2x⟩ := List.mem_map.mp hxr
        have hm2os : m2.originalSize = 0 :=
          of_decide_eq_true (List.mem_filter.mp hm2).2
        have hm2p : m2.relativePath = m'.relativePath := by
          rw [hmm', ← hxeq, ← hm2x]
        have hm2m : m2 = m' :=
          huniq (k, metas) (by simp) m2 (List.mem_of_mem_filter hm2)
            (by rw [hm2p, hmm'])
        rw [hm2m] at hm2os
        exact hos hm2os
      · exact hnotin g' (List.mem_append.mpr (Or.inr hgg)) hm'g

/-- Concrete witness for the quarantine theorem: one frame whose
decoded bytes hash differently from the stored digest. -/
theorem hashMismatchQuarantine_witness :
    (⟨0, [9], [97], 5, 2⟩ : FCMeta) ∈ [(⟨0, [9], [97], 5, 2⟩ : FCMeta)] ∧
    ¬ idHash [1, 2] = [9] ∧
    ∃ out errs,
      decompressFiles tagCodec idHash (tagCodec.compressStream [1, 2])
          ([] ++ ([9], [(⟨0, [9], [97], 5, 2⟩ : FCMeta)]) :: [])
        = some (out, errs) ∧
      ([97] : Bytes) ∈ errs ∧
      ∀ x ∈ out, x.relPath ≠ ([97] : Bytes) :=
  ⟨by decide, by decide,
    hashMismatchQuarantine tagCodec idHash (tagCodec.compressStream [1, 2])
      [9] [1, 2] [⟨0, [9], [97], 5, 2⟩] ⟨0, [9], [97], 5, 2⟩
      ⟨0, [9], [97], 5, 2⟩ [] [] (by decide) (by decide) (by decide)
      (by decide) (by intro g hg; cases hg) (by intro g hg; cases hg)
      (by decide) (by decide) (by decide) (by decide)⟩

/-- C9 (counterexample).  The first-seen classification is not
deterministic across runs: with two files of identical contents, the
completion order `[b, a]` of the hashing tasks — a permutation of the
scan list, hence a possible schedule — classifies `b` as the original,
while the order `[a, b]` classifies `a`; the partitions differ, and the
scan-earliest path `a` is not the one classified unique in the second
run. -/
theorem firstSeen_counterexample :
    ([⟨[98], [1]⟩, ⟨[97], [1]⟩] : List FSFile).Perm
        [⟨[97], [1]⟩, ⟨[98], [1]⟩] ∧
    (groupFiles [⟨[97], [1]⟩, ⟨[98], [1]⟩]
        (computeHashes idHash [⟨[97], [1]⟩, ⟨[98], [1]⟩]).2
        (computeHashes idHash [⟨[97], [1]⟩, ⟨[98], [1]⟩]).1).uniqueFiles
      ≠ (groupFiles [⟨[97], [1]⟩, ⟨[98], [1]⟩]
        (computeHashes idHash [⟨[98], [1]⟩, ⟨[97], [1]⟩]).2
        (computeHashes idHash [⟨[98], [1]⟩, ⟨[97], [1]⟩]).1).uniqueFiles ∧
    (⟨[97], [1]⟩ : FSFile) ∉ (groupFiles [⟨[97], [1]⟩, ⟨[98], [1]⟩]
        (computeHashes idHash [⟨[98], [1]⟩, ⟨[97], [1]⟩]).2
        (computeHashes idHash [⟨[98], [1]⟩, ⟨[97], [1]⟩]).1).uniqueFiles := by
  refine ⟨by decide, by decide, by decide⟩

/-- C9 (amended).  The classification is deterministic given the
completion order of the hashing tasks: a scanned file is classified
unique iff it is the first file in that completion order with its
digest; in particular, when the tasks complete in scan order, the
scan-earliest path of each digest class is the one classified
original. -/
theorem firstSeenClassification (h : Bytes → Bytes)
    (files hashOrder : List FSFile) (f : FSFile)
    (hperm : hashOrder.Perm files)
    (hnd : (files.map FSFile.relPath).Nodup)
    (hf : f ∈ files) :
    isFirstOccurrence (computeHashes h hashOrder).2
        (computeHashes h hashOrder).1 f = true
      ↔ hashOrder.find? (fun g => decide (h g.content = h f.content))
          = some f :=
  unique_iff_first h files hashOrder f hperm hnd hf

/-- Concrete witness for the first-seen classification theorem. -/
theorem firstSeenClassification_witness :
    ([⟨[98], [1]⟩, ⟨[97], [1]⟩] : List FSFile).Perm
        [⟨[97], [1]⟩, ⟨[98], [1]⟩] ∧
    (isFirstOccurrence
        (computeHashes idHash [⟨[98], [1]⟩, ⟨[97], [1]⟩]).2
        (computeHashes idHash [⟨[98], [1]⟩, ⟨[97], [1]⟩]).1
        ⟨[98], [1]⟩ = true
      ↔ ([⟨[98], [1]⟩, ⟨[97], [1]⟩] : List FSFile).find?
          (fun g => decide (idHash g.content = idHash [1]))
        = some ⟨[98], [1]⟩) :=
  ⟨by decide,
    firstSeenClassification idHash [⟨[97], [1]⟩, ⟨[98], [1]⟩]
      [⟨[98], [1]⟩, ⟨[97], [1]⟩] ⟨[98], [1]⟩ (by decide) (by decide)
      (by decide)⟩

set_option maxRecDepth 20000 in
/-- C3 (counterexample).  Something does precede the first payload
frame: `compress` writes the 4-byte codec id at the head of the archive
before any frame, so the archive does not begin with the frame of its
first unique file; and the footer the implementation writes has three
fields (codec id, `metaOffset`, `metaCount`), not the four the claim
lists. -/
theorem archiveLayout_counterexample :
    (compress tagCodec idHash 2 [⟨[97], [1, 2]⟩]).take 4 = io.u32le 2 ∧
    io.u32le 2 ≠ [] ∧
    (compress tagCodec idHash 2 [⟨[97], [1, 2]⟩]).take
        (tagCodec.compressStream [1, 2]).length
      ≠ tagCodec.compressStream [1, 2] ∧
    ((compress tagCodec idHash 2 [⟨[97], [1, 2]⟩]).drop 4).take
        (tagCodec.compressStream [1, 2]).length
      = tagCodec.compressStream [1, 2] := by
  refine ⟨by decide, by decide, by decide, by decide⟩

/-- C3 (amended).  Archive layout as implemented: the 4-byte codec-id
header comes first, then the payload frames back to back, then the
metadata section (record count, then the records), then the footer —
whose fields are `metaOffset` and the record count in this translation
unit's serialisation, and codec id, `metaOffset`, `metaCount` in
`io::writeFooter`. -/
theorem archiveLayout (codec : StreamCodec) (h : Bytes → Bytes)
    (ct : Nat) (uniqOrder dupOrder : List FSFile) :
    compressWithSchedule codec h ct uniqOrder dupOrder
      = io.u32le ct ++ (compressFrames codec uniqOrder).flatten
        ++ io.u64le (processFiles codec h uniqOrder dupOrder
            (io.u32le ct)).metadata.length
        ++ (processFiles codec h uniqOrder dupOrder
            (io.u32le ct)).metadata.flatMap fcRecordBytes
        ++ io.u64le (4 + (compressFrames codec uniqOrder).flatten.length)
        ++ io.u64le (processFiles codec h uniqOrder dupOrder
            (io.u32le ct)).metadata.length ∧
    ∀ a mo mc, io.writeFooter a ct mo mc
      = a ++ (io.u32le ct ++ io.u64le mo ++ io.u64le mc) :=
  ⟨compress_layout codec h ct uniqOrder dupOrder,
    fun a mo mc => by rw [io.writeFooter, io.footerBytes]⟩

/-- C4.  Codec-id instability (code bug): the integer identity values
are the positions of the enumerators the build actually declares, and
each of `BROTLI`, `ZSTD`, `ZLIB` is declared only under its feature
gate, so the values shift with the build configuration.  `ZLIB` is 2 in
a build with all three codecs but 0 in a zlib-only build; `ZSTD` is 1
with all three but 0 in a zstd-only build — archives written by one
build name a different codec when read by another, contradicting the
claimed cross-build stability. -/
theorem codecIdInstability :
    enumValue true true true CompressionType.ZLIB = some 2 ∧
    enumValue false false true CompressionType.ZLIB = some 0 ∧
    enumValue true true true CompressionType.ZSTD = some 1 ∧
    enumValue false true false CompressionType.ZSTD = some 0 ∧
    enumValue true true true CompressionType.BROTLI = some 0 := by
  refine ⟨by decide, by decide, by decide, by decide, by decide⟩

set_option maxRecDepth 20000 in
/-- C6.  Empty files are archived (code bug): a zero-byte file in the
scan list is hashed and stored — the archive's metadata table carries a
record for it (offset at the current end of the archive, the digest of
the empty string, both sizes 0) — and after decompression a file does
appear at its relative path.  This contradicts the claimed exclusion
policy (which the repository's own tests expect, via the
`skipEmptyFiles` scan parameter declared in `include/IO.h` but absent
from `io::scanDirectory` in `src/IO.cpp`). -/
theorem emptyFileArchived :
    readMetadataFC (compress tagCodec idHash 2 [⟨[101], []⟩])
      = some [⟨4, [], [101], 0, 0⟩] ∧
    decompress tagCodecOf idHash (compress tagCodec idHash 2 [⟨[101], []⟩])
      = some ([⟨[101], []⟩], []) := by
  refine ⟨by decide, by decide⟩

end compression

namespace threading

/-- C8.  Worker-pool default size (code bug): the default argument
`std::thread::hardware_concurrency() - 1` has no minimum-one clamp.  On
a single-core machine (`hardware_concurrency() = 1`) the default pool
is created with 0 worker threads — there is no thread to ever run a
task — and if `hardware_concurrency()` reports 0, the unsigned
subtraction wraps to `2^32 - 1`. -/
theorem workerPoolDefaultZero :
    defaultNumThreads 1 = 0 ∧
    poolThreadCount (defaultNumThreads 1) = 0 ∧
    defaultNumThreads 0 = 2 ^ 32 - 1 ∧
    defaultNumThreads 8 = 7 := by
  refine ⟨by decide, by decide, by decide, by decide⟩

end threading

namespace io

/-- C5 (counterexample).  The duplicate classification the code uses is
the sign of `dataOffset`, not emptiness of the digest: a record with
negative offset and nonempty digest is classified duplicate, survives a
metadata write/read round trip as a duplicate with its nonempty digest
intact, and a record with empty digest but nonnegative offset is
classified original. -/
theorem duplicateClassification_counterexample :
    (⟨-1, [104], [112]⟩ : meta.FileMeta).isDuplicate = true ∧
    ([104] : Bytes) ≠ [] ∧
    readMetadata (writeMetadata [] [⟨-1, [104], [112]⟩] 2)
      = some ([⟨-1, [104], [112]⟩], 2) ∧
    (⟨0, [], [112]⟩ : meta.FileMeta).isOriginal = true := by
  refine ⟨by decide, by decide, by decide, by decide⟩

/-- C5 (amended).  A record is classified duplicate iff its
`dataOffset` is negative (its digest plays no part), and the partition
performed when writing and reading metadata follows that predicate:
reading back a written table returns the originals unchanged followed
by the duplicates, each duplicate reconstructed with offset `-1` and
its stored digest and path. -/
theorem duplicatePartition (archive : Bytes) (ms : List meta.FileMeta)
    (ct : Nat) (hm : ∀ m ∈ ms, ValidMeta m) (hct : ct < 2 ^ 32)
    (hmo : archive.length < 2 ^ 64) (hmc : ms.length < 2 ^ 64) :
    (∀ m : meta.FileMeta, m.isDuplicate = true ↔ m.dataOffset < 0) ∧
    readMetadata (writeMetadata archive ms ct)
      = some ((ms.filter fun m => m.isOriginal)
          ++ (ms.filter fun m => m.isDuplicate).map
              (fun m => ⟨-1, m.hash, m.relativePath⟩), ct) := by
  refine ⟨fun m => ?_,
    readMetadata_writeMetadata archive ms ct hm hct hmo hmc⟩
  simp [meta.FileMeta.isDuplicate]

/-- The metadata table used to witness the partition theorem: one
original and one duplicate record. -/
def wMeta : List meta.FileMeta := [⟨5, [1], [2]⟩, ⟨-3, [4], [5]⟩]

/-- Concrete witness for the duplicate-partition theorem. -/
theorem duplicatePartition_witness :
    (∀ m ∈ wMeta, ValidMeta m) ∧
    ((∀ m : meta.FileMeta, m.isDuplicate = true ↔ m.dataOffset < 0) ∧
    readMetadata (writeMetadata [] wMeta 1)
      = some ((wMeta.filter fun m => m.isOriginal)
          ++ (wMeta.filter fun m => m.isDuplicate).map
              (fun m => ⟨-1, m.hash, m.relativePath⟩), 1)) :=
  ⟨by decide,
    duplicatePartition [] wMeta 1 (by decide) (by decide) (by decide)
      (by decide)⟩

/-- C10.  `io::readMetadata` shape invariant: every accepted archive
yields a vector that is the originals run followed by the duplicates
run, of total length `originalCount + duplicateCount` as read from the
metadata section, with the originals run of length exactly
`originalCount`, and every duplicate record carrying `dataOffset`
exactly `-1` (the parser writes the constant, whatever the aliased
original's offset is). -/
theorem readMetadataShape (bs : Bytes) (ms : List meta.FileMeta)
    (ct : Nat) (h : readMetadata bs = some (ms, ct)) :
    ∃ r, readMetadataCore bs = some r ∧
      ms = r.originals ++ r.duplicates ∧
      ms.length = r.originalCount + r.duplicateCount ∧
      r.originals.length = r.originalCount ∧
      ∀ m ∈ r.duplicates, m.dataOffset = -1 := by
  rw [readMetadata] at h
  cases hc : readMetadataCore bs with
  | none => rw [hc] at h; exact absurd h (by simp)
  | some r =>
    rw [hc] at h
    simp only [Option.map_some', Option.some.injEq, Prod.mk.injEq] at h
    obtain ⟨h1, _⟩ := h
    obtain ⟨ho, hd, hoff⟩ := readMetadataCore_spec bs r hc
    exact ⟨r, rfl, h1.symm,
      by rw [← h1, List.length_append, ho, hd], ho, hoff⟩

/-- The archive bytes used to witness the shape invariant. -/
def wBytes : Bytes := writeMetadata [] [⟨7, [1], [2]⟩, ⟨-1, [], [3]⟩] 2

/-- Concrete witness for the shape-invariant theorem. -/
theorem readMetadataShape_witness :
    readMetadata wBytes = some ([⟨7, [1], [2]⟩, ⟨-1, [], [3]⟩], 2) ∧
    ∃ r, readMetadataCore wBytes = some r ∧
      ([(⟨7, [1], [2]⟩ : meta.FileMeta), ⟨-1, [], [3]⟩]
        = r.originals ++ r.duplicates) ∧
      ([(⟨7, [1], [2]⟩ : meta.FileMeta), ⟨-1, [], [3]⟩].length
        = r.originalCount + r.duplicateCount) ∧
      r.originals.length = r.originalCount ∧
      ∀ m ∈ r.duplicates, m.dataOffset = -1 :=
  ⟨by decide,
    readMetadataShape wBytes [⟨7, [1], [2]⟩, ⟨-1, [], [3]⟩] 2 (by decide)⟩

end io

end LogRescuer
